import Mathlib

/-! # go-ogle-analytics: the protocol generator (generate/protocol.go)

A shallow embedding of the generator pipeline
parse → buildTypes → process (processField, processHitType) → generate.

Modelling conventions
* A Go string is a list of Unicode code points (`Str`); the input is taken to be valid
  UTF-8.  `len` is the UTF-8 byte length.
* `log.Fatal`/`log.Fatalf` terminate the run: a function that can reach one returns
  `Except Str _`, the error carrying the logged message.
* The package-level variables `allFields` and `hitTypes` are the two components of `State`.
* A `*Field` held in `allFields` is identified by its position in `allFields`; the
  pseudo-fields allocated by `processHitType` are referenced from one hit type only.
* The order in which `range` visits a Go map is unspecified: it is a parameter `ord`
  sending the key set to the visiting order.
* `unicode.IsLower/IsUpper/ToUpper/ToLower`, used by the xstrings dependency, are a
  parameter `CaseTable`.
-/

namespace Protocol

/-- A Go string, as its sequence of code points. -/
abbrev Str := List Char

/-! ## The Go standard library functions the generator calls -/

/-- Number of bytes of the UTF-8 encoding of a code point. -/
def runeLen (c : Char) : Nat :=
  if c.toNat < 0x80 then 1 else if c.toNat < 0x800 then 2 else if c.toNat < 0x10000 then 3 else 4

/-- Go builtin len on a string: its length in bytes. -/
def len (s : Str) : Nat := (s.map runeLen).sum

/-- Go unicode.IsSpace. -/
def isSpace (c : Char) : Bool :=
  let n := c.toNat
  n == 0x20 || (0x09 ≤ n && n ≤ 0x0d) || n == 0x85 || n == 0xA0 || n == 0x1680 ||
    (0x2000 ≤ n && n ≤ 0x200a) || n == 0x2028 || n == 0x2029 || n == 0x202f ||
    n == 0x205f || n == 0x3000

/-- Go strings.TrimSpace (the generator calls it trim). -/
def trim (s : Str) : Str :=
  ((s.dropWhile isSpace).reverse.dropWhile isSpace).reverse

/-- Go strings.Contains. -/
def Contains : Str → Str → Bool
  | [], sub => sub.isPrefixOf []
  | c :: rest, sub => sub.isPrefixOf (c :: rest) || Contains rest sub

/-- Go strings.Replace(s, old, new, 1): the first occurrence of old is replaced. -/
def replaceFirst : Str → Str → Str → Str
  | [], old, new => if old = [] then new else []
  | c :: rest, old, new =>
    if old.isPrefixOf (c :: rest) then new ++ (c :: rest).drop old.length
    else c :: replaceFirst rest old new

/-- Put a character in front of the first piece of a split. -/
def consHead (c : Char) : List Str → List Str
  | [] => [[c]]
  | w :: ws => (c :: w) :: ws

/-- Scan of strings.Split for a non-empty separator; the first argument counts the
characters of an already matched separator that are still to be skipped. -/
def splitAux (sep : Str) : Nat → Str → List Str
  | _, [] => [[]]
  | k + 1, _ :: rest => splitAux sep k rest
  | 0, c :: rest =>
    if sep.isPrefixOf (c :: rest) then [] :: splitAux sep (sep.length - 1) rest
    else consHead c (splitAux sep 0 rest)

/-- Go strings.Split. -/
def Split (s sep : Str) : List Str :=
  if sep = [] then s.map (fun c => [c]) else splitAux sep 0 s

/-- Go strings.Join. -/
def Join (words : List Str) (sep : Str) : Str := sep.intercalate words

/-- Go strings.TrimPrefix. -/
def TrimPrefix (s pre : Str) : Str :=
  if pre.isPrefixOf s then s.drop pre.length else s

/-- Order of Go string comparison (bytewise, which on valid UTF-8 is the order of the
code points). -/
def strLe : Str → Str → Bool
  | [], _ => true
  | _ :: _, [] => false
  | a :: as, b :: bs =>
    if a.toNat < b.toNat then true else if b.toNat < a.toNat then false else strLe as bs

/-- The relation sort.Strings sorts by. -/
def StrLE (a b : Str) : Prop := strLe a b = true

instance : DecidableRel StrLE := fun a b => inferInstanceAs (Decidable (strLe a b = true))

/-- Go sort.Strings. -/
def sortStrings (l : List Str) : List Str := l.insertionSort StrLE

/-! ## The xstrings dependency -/

/-- The Unicode case tables used by xstrings.FirstRuneToUpper / FirstRuneToLower. -/
structure CaseTable where
  isLower : Char → Bool
  isUpper : Char → Bool
  toUpper : Char → Char
  toLower : Char → Char

/-- The case tables restricted to ASCII (every other code point has no case). -/
def asciiCase : CaseTable where
  isLower c := 97 ≤ c.toNat && c.toNat ≤ 122
  isUpper c := 65 ≤ c.toNat && c.toNat ≤ 90
  toUpper c := if 97 ≤ c.toNat && c.toNat ≤ 122 then Char.ofNat (c.toNat - 32) else c
  toLower c := if 65 ≤ c.toNat && c.toNat ≤ 90 then Char.ofNat (c.toNat + 32) else c

/-- Function xstrings.FirstRuneToUpper. -/
def FirstRuneToUpper (U : CaseTable) : Str → Str
  | [] => []
  | r :: rest => if U.isLower r then U.toUpper r :: rest else r :: rest

/-- Function xstrings.FirstRuneToLower. -/
def FirstRuneToLower (U : CaseTable) : Str → Str
  | [] => []
  | r :: rest => if U.isUpper r then U.toLower r :: rest else r :: rest

/-! ## Regular expressions of the generator -/

/-- Character class [A-Za-z]. -/
def isAlpha (c : Char) : Bool :=
  (65 ≤ c.toNat && c.toNat ≤ 90) || (97 ≤ c.toNat && c.toNat ≤ 122)

/-- Character class [a-z]. -/
def isLowerAZ (c : Char) : Bool := 97 ≤ c.toNat && c.toNat ≤ 122

/-- A match, anchored at the start of the input, of a regular expression of the shape
lq (cls+) rq, where neither delimiter is in the class: the captured group. -/
def matchDelim (lq : Char) (cls : Char → Bool) (rq : Char) : Str → Option Str
  | [] => none
  | c :: rest =>
    if c = lq ∧ rest.takeWhile cls ≠ [] ∧
        (rest.drop (rest.takeWhile cls).length).head? = some rq
    then some (rest.takeWhile cls) else none

/-- The group of the leftmost match of lq (cls+) rq, as selected by
FindAllStringSubmatch(s, 1). -/
def firstMatch (lq : Char) (cls : Char → Bool) (rq : Char) : Str → Option Str
  | [] => none
  | c :: rest =>
    match matchDelim lq cls rq (c :: rest) with
    | some g => some g
    | none => firstMatch lq cls rq rest

/-- All successive non-overlapping leftmost matches of lq (cls+) rq, as returned by
FindAllString(s, -1); the first argument counts the characters of the last match that
are still to be skipped. -/
def findAllAux (lq : Char) (cls : Char → Bool) (rq : Char) : Nat → Str → List Str
  | _, [] => []
  | k + 1, _ :: rest => findAllAux lq cls rq k rest
  | 0, c :: rest =>
    match matchDelim lq cls rq (c :: rest) with
    | some g => (lq :: g ++ [rq]) :: findAllAux lq cls rq (g.length + 1) rest
    | none => findAllAux lq cls rq 0 rest

/-- The closure returned by grepper(restr): find is the regular expression's
FindAllStringSubmatch(s, 1), giving the captured group of the only match asked for. -/
def grepper (restr : Str) (find : Str → Option Str) (s : Str) : Except Str Str :=
  match find s with
  | none => .error ("'".toList ++ restr ++ "' should match '".toList ++ s ++
      "' exactly once".toList)
  | some g => .ok g

/-- The closure returned by striper(restr) for a one-character class: every character
of the class is deleted. -/
def striper (cls : Char → Bool) (s : Str) : Str := s.filter (fun c => !cls c)

/-- Regular expression ^([^\/]+) : the non-empty text before the first slash. -/
def preslash : Str → Except Str Str :=
  grepper "^([^\\/]+)".toList
    (fun s => if s.takeWhile (fun c => c != '/') = [] then none
              else some (s.takeWhile (fun c => c != '/')))

/-- Regular expression [^A-Za-z] deleted everywhere. -/
def alpha : Str → Str := striper (fun c => !isAlpha c)

/-- All matches of indexMatcher, the regular expression <[A-Za-z]+> . -/
def indexMatcherFindAll (s : Str) : List Str := findAllAux '<' isAlpha '>' 0 s

/-- Regular expression <([A-Za-z]+)> . -/
def indexVar : Str → Except Str Str :=
  grepper "<([A-Za-z]+)>".toList (firstMatch '<' isAlpha '>')

/-- Regular expression '([a-z]+)' . -/
def strVar : Str → Except Str Str :=
  grepper "'([a-z]+)'".toList (firstMatch (Char.ofNat 39) isLowerAZ (Char.ofNat 39))

/-! ## Data model -/

/-- Go struct Field. -/
structure Field where
  Name : Str := []
  PrivateName : Str := []
  Docs : Str := []
  Param : Str := []
  ParamStr : Str := []
  /-- Go field Type (a reserved word here). -/
  Typ : Str := []
  Default : Str := []
  MaxLen : Str := []
  Examples : Str := []
  Required : Bool := false
  HitTypes : List Str := []
  Indices : List Str := []
  deriving DecidableEq, Repr

/-- A value of type *Field: either the field allocated for the i-th entry of the
document (the i-th element of allFields), or a pseudo-field allocated by processHitType. -/
inductive FieldRef where
  | decl (i : Nat)
  | pseudo (f : Field)
  deriving DecidableEq, Repr

/-- Go struct HitType. -/
structure HitType where
  Name : Str := []
  StructName : Str := []
  Fields : List FieldRef := []
  Indices : List Str := []
  HitTypeIDs : List Str := []
  deriving DecidableEq, Repr

/-- Go map[string]*HitType, as an association list with one entry per key. -/
abbrev Registry := List (Str × HitType)

/-- Map lookup hitTypes[k]. -/
def regGet : Registry → Str → Option HitType
  | [], _ => none
  | (k, h) :: rest, key => if k = key then some h else regGet rest key

/-- Map assignment hitTypes[k] = h. -/
def regSet : Registry → Str → HitType → Registry
  | [], key, h => [(key, h)]
  | (k, h0) :: rest, key, h => if k = key then (key, h) :: rest else (k, h0) :: regSet rest key h

/-- The keys of the map. -/
def regKeys (reg : Registry) : List Str := reg.map Prod.fst

/-- The package-level variables. -/
structure State where
  allFields : List Field := []
  hitTypes : Registry := []
  deriving DecidableEq, Repr

/-- The initial values of the package-level variables: no field, and the special base
type client. -/
def State.init : State :=
  { allFields := [], hitTypes := [("client".toList, { Name := "client".toList })] }

/-- The field a *Field points to (the positions buildTypes records are always in range;
out of range the zero Field stands in). -/
def deref (allFields : List Field) : FieldRef → Field
  | .decl i => allFields.getD i {}
  | .pseudo f => f

/-! ## Helpers of the generator -/

/-- Function comment, one iteration of the loop over the words. -/
def commentStep (acc : Str × Nat) (w : Str) : Str × Nat :=
  let acc1 : Str × Nat := if acc.2 > 55 then (acc.1 ++ "\n//".toList, 0) else acc
  (acc1.1 ++ (" ".toList ++ w), acc1.2 + (len w + 1))

/-- Function comment. -/
def comment (s : Str) : Str :=
  ((Split s " ".toList).foldl commentStep ("//".toList, 0)).1

/-- Function exportName. -/
def exportName (U : CaseTable) (s : Str) : Str :=
  Join ((Split s " ".toList).map (FirstRuneToUpper U)) []

/-- Function goName. -/
def goName (parent field : Str) : Str := TrimPrefix field parent

/-- Function goType. -/
def goType (gaType : Str) : Except Str Str :=
  if gaType = "text".toList then .ok "string".toList
  else if gaType = "integer".toList then .ok "int64".toList
  else if gaType = "boolean".toList then .ok "bool".toList
  else if gaType = "currency".toList then .ok "float64".toList
  else .error ("Unknown GA Type: ".toList ++ gaType)

/-! ## parse: extraction of the raw fields -/

/-- The text blocks the document queries of parse select for one h3 heading s, with
content = s.Next().Children() and cells = content.Eq(2).Find("tr td"). -/
structure Entry where
  /-- Text of s.Find("a"). -/
  anchor : Str := []
  /-- Text of content.Eq(0). -/
  marker : Str := []
  /-- Text of content.Eq(1). -/
  docs : Str := []
  /-- Text of cells.Eq(0). -/
  cell0 : Str := []
  /-- Text of cells.Eq(1). -/
  cell1 : Str := []
  /-- Text of cells.Eq(2). -/
  cell2 : Str := []
  /-- Text of cells.Eq(3). -/
  cell3 : Str := []
  /-- Text of cells.Eq(4). -/
  cell4 : Str := []
  /-- Text of content.Eq(3). -/
  examples : Str := []
  deriving DecidableEq, Repr

/-- The Field literal built in parse from the trimmed raw contents of an entry. -/
def rawField (e : Entry) : Field :=
  { Name := trim e.anchor
    Required := !Contains e.marker "Optional".toList
    Docs := trim e.docs
    Param := trim e.cell0
    Typ := trim e.cell1
    Default := trim e.cell2
    MaxLen := trim e.cell3
    HitTypes := Split (trim e.cell4) ", ".toList
    Examples := trim e.examples }

/-- One call of the closure given to Each in parse: the state is the local variable
hitTypeDocs together with the package-level allFields. -/
def parseEach (acc : Str × List Field) (e : Entry) : Str × List Field :=
  let f := rawField e
  let hitTypeDocs := if f.Name = "Hit type".toList then f.Docs else acc.1
  (hitTypeDocs, acc.2 ++ [f])

/-- The loop doc.Find("h3").Each(...) of parse over the entries in document order,
started from the empty hitTypeDocs and the current allFields. -/
def parseLoop (entries : List Entry) (allFields : List Field) : Str × List Field :=
  entries.foldl parseEach ([], allFields)

/-! ## buildTypes -/

/-- First loop of buildTypes: one fresh HitType per piece of the enumeration. -/
def registerTypes : List Str → Registry → Except Str Registry
  | [], reg => .ok reg
  | t :: ts, reg =>
    match strVar t with
    | .error e => .error e
    | .ok t1 => registerTypes ts (regSet reg t1 { Name := t1 })

/-- The client type holds all the common fields: the name all stands for client. -/
def normType (t : Str) : Str := if t = "all".toList then "client".toList else t

/-- Inner loop of buildTypes over f.HitTypes, for the field at position i. -/
def placeField (i : Nat) : List Str → Registry → Except Str Registry
  | [], reg => .ok reg
  | t :: ts, reg =>
    match regGet reg (normType t) with
    | none => .error ("Unknown type: '".toList ++ normType t ++ "'".toList)
    | some h =>
      placeField i ts (regSet reg (normType t) { h with Fields := h.Fields ++ [FieldRef.decl i] })

/-- Second loop of buildTypes over allFields; i is the position of the first field of
the list. -/
def placeAll : Nat → List Field → Registry → Except Str Registry
  | _, [], reg => .ok reg
  | i, f :: fs, reg =>
    match placeField i f.HitTypes reg with
    | .error e => .error e
    | .ok reg1 => placeAll (i + 1) fs reg1

/-- Function buildTypes up to its last statement, the call of process, which is
composed with it in run. -/
def buildTypes (hitTypeDocs : Str) (st : State) : Except Str State :=
  match registerTypes (Split hitTypeDocs ",".toList) st.hitTypes with
  | .error e => .error e
  | .ok reg =>
    match placeAll 0 st.allFields reg with
    | .error e => .error e
    | .ok reg1 => .ok { st with hitTypes := reg1 }

/-! ## processField -/

/-- The sentence whose presence in the description forces a field to be required. -/
def mustNotBeEmpty : Str := "Must not be empty.".toList

/-- Lines 327-332 of processField: the identifier derived from the raw name. -/
def derivedName (U : CaseTable) (f : Field) : Except Str Str :=
  match preslash f.Name with
  | .error e => .error e
  | .ok n =>
    .ok (f.HitTypes.foldl (fun name h => goName (exportName U h) name)
      (alpha (exportName U n)))

/-- The text spliced into ParamStr in place of a placeholder. -/
def spliceVar (newi : Str) : Str := "\" + h.".toList ++ newi ++ " + \"".toList

/-- Lines 360-366 of processField: the loop over the matches of indexMatcher, on the
pair (f.Indices, f.ParamStr). -/
def paramLoop : List Str → List Str × Str → Except Str (List Str × Str)
  | [], acc => .ok acc
  | i :: rest, acc =>
    match indexVar i with
    | .error e => .error e
    | .ok newi => paramLoop rest (acc.1 ++ [newi], replaceFirst acc.2 i (spliceVar newi))

/-- Lines 334-355 of processField, which cannot abort: the field after its identifier
name is derived, up to the formatting of the documentation. -/
def processNames (U : CaseTable) (f : Field) (name : Str) : Field :=
  let f1 : Field := { f with Name := name, PrivateName := FirstRuneToLower U name }
  let f2 : Field :=
    if f1.Name = "ProtocolVersion".toList ∨ f1.Name = "ClientID".toList
    then { f1 with Required := false } else f1
  let f3 : Field :=
    if Contains f2.Docs mustNotBeEmpty
    then { f2 with Docs := replaceFirst f2.Docs mustNotBeEmpty [], Required := true } else f2
  let f4 : Field :=
    if f3.Name = "HitType".toList then { f3 with Name := FirstRuneToLower U f3.Name } else f3
  { f4 with Docs := comment (trim f4.Docs) }

/-- Function processField. -/
def processField (U : CaseTable) (f : Field) : Except Str Field :=
  match derivedName U f with
  | .error e => .error e
  | .ok name =>
    let f5 : Field := processNames U f name
    match goType f5.Typ with
    | .error e => .error e
    | .ok ty =>
      let f6 : Field := { f5 with Typ := ty, ParamStr := "\"".toList ++ f5.Param ++ "\"".toList }
      match paramLoop (indexMatcherFindAll f6.Param) (f6.Indices, f6.ParamStr) with
      | .error e => .error e
      | .ok acc => .ok { f6 with Indices := acc.1, ParamStr := acc.2 }

/-! ## processHitType and process -/

/-- Insertion of a key into a Go map used as a set. -/
def setInsert (s : List Str) (k : Str) : List Str := if k ∈ s then s else s ++ [k]

/-- The set is of processHitType: the index variables of all the fields of h. -/
def indexSet (allFields : List Field) (h : HitType) : List Str :=
  h.Fields.foldl (fun s r => (deref allFields r).Indices.foldl setInsert s) []

/-- The pseudo-field processHitType allocates for an index variable. -/
def pseudoField (U : CaseTable) (i : Str) : Field :=
  { Name := FirstRuneToUpper U i
    PrivateName := i
    Typ := "string".toList
    Docs := "// ".toList ++ FirstRuneToUpper U i ++ " is required by other properties".toList }

/-- Function processHitType, on the hit type h of the registry reg; ord is the order in
which range visits the keys of a map. -/
def processHitType (U : CaseTable) (ord : List Str → List Str) (allFields : List Field)
    (reg : Registry) (h : HitType) : HitType :=
  let h1 : HitType := { h with StructName := exportName U h.Name }
  let h2 : HitType :=
    { h1 with Indices := sortStrings (h1.Indices ++ ord (indexSet allFields h1)) }
  let h3 : HitType :=
    { h2 with Fields := h2.Fields ++ h2.Indices.map (fun i => FieldRef.pseudo (pseudoField U i)) }
  if h3.Name = "client".toList then
    { h3 with HitTypeIDs := sortStrings (h3.HitTypeIDs ++
        (((ord (regKeys reg)).filterMap (regGet reg)).map HitType.Name).filter
          (fun n => n != "client".toList)) }
  else h3

/-- First loop of process: processField on every field, in order. -/
def processFields (U : CaseTable) : List Field → Except Str (List Field)
  | [] => .ok []
  | f :: fs =>
    match processField U f with
    | .error e => .error e
    | .ok f1 =>
      match processFields U fs with
      | .error e => .error e
      | .ok fs1 => .ok (f1 :: fs1)

/-- Function process up to its last statement, the call of generate: an error means
that generate is never reached. -/
def process (U : CaseTable) (ord : List Str → List Str) (st : State) : Except Str State :=
  match processFields U st.allFields with
  | .error e => .error e
  | .ok fs =>
    .ok { allFields := fs
          hitTypes := (ord (regKeys st.hitTypes)).foldl
            (fun reg k =>
              match regGet reg k with
              | none => reg
              | some h => regSet reg k (processHitType U ord fs reg h))
            st.hitTypes }

/-- Function parse after the document is read, followed by buildTypes and process: the
state generate is called on. -/
def run (U : CaseTable) (ord : List Str → List Str) (entries : List Entry) :
    Except Str State :=
  match buildTypes (parseLoop entries State.init.allFields).1
      { State.init with allFields := (parseLoop entries State.init.allFields).2 } with
  | .error e => .error e
  | .ok st => process U ord st

/-! ## The code template (buildCode) and generate

The template text returned by buildCode is a program of the text/template language;
each of its parts is embedded as the function computing the text the part renders:
a range over .Fields is a map over the fields the hit type points to, an if is an if.
The tabs, line breaks and braces are those of the template. -/

/-- The fields a hit type points to, as the template reads them through .Fields . -/
def fieldsOf (allFields : List Field) (h : HitType) : List Field :=
  h.Fields.map (deref allFields)

namespace buildCode

/-- Template part clientFields, on the hit type named name. -/
def clientFields (name : Str) : Str :=
  if name = "client".toList then
    "\t//Use TLS when Send()ing\n\tUseTLS bool\n\tHttpClient *http.Client\n".toList
  else []

/-- Template part fields: one member per field, and an is-set flag for a field that
is not required. -/
def fields (fs : List Field) : Str :=
  (fs.map (fun f =>
    "\t".toList ++ f.PrivateName ++ " ".toList ++ f.Typ ++
      (if !f.Required then "\n\t".toList ++ f.PrivateName ++ "Set bool".toList else []) ++
      "\n".toList)).flatten

/-- Template part paramVal, on one field: the member converted to its wire string. -/
def paramVal (f : Field) : Str :=
  (if f.Typ = "string".toList then "h.".toList ++ f.PrivateName else []) ++
  (if f.Typ = "bool".toList then "bool2str(h.".toList ++ f.PrivateName ++ ")".toList else []) ++
  (if f.Typ = "int64".toList then "int2str(h.".toList ++ f.PrivateName ++ ")".toList else []) ++
  (if f.Typ = "float64".toList then "float2str(h.".toList ++ f.PrivateName ++ ")".toList
    else [])

/-- Template part params: the body of addFields, up to its return. -/
def params (fs : List Field) : Str :=
  (fs.map (fun f =>
    if f.Param ≠ [] then
      (if !f.Required then "\tif h.".toList ++ f.PrivateName ++ "Set \x7b\n".toList else []) ++
      "\t\tv.Add(".toList ++ f.ParamStr ++ ", ".toList ++ paramVal f ++ ")".toList ++
      (if !f.Required then "\n\t\x7d".toList else []) ++
      "\n".toList
    else [])).flatten

/-- Template part constructorDocs, inside its test that the hit type is not client. -/
def constructorDocs (structName : Str) (fs : List Field) : Str :=
  "// New".toList ++ structName ++ " ".toList ++
  "creates a new ".toList ++ structName ++ " Hit Type.".toList ++
  (fs.map (fun f => "\n\t\t".toList ++ (if f.Required then f.Docs else []))).flatten

/-- Template part constructorParams: index is the position of the field in .Fields . -/
def constructorParams (fs : List Field) : Str :=
  (fs.enum.map (fun p =>
    if p.2.Required then
      (if p.1 ≠ 0 then ",".toList else []) ++ p.2.PrivateName ++ " ".toList ++ p.2.Typ
    else [])).flatten

/-- The member assignments of the constructor body. -/
def constructorBody (fs : List Field) : Str :=
  (fs.map (fun f =>
    if f.Required then
      "\t\t".toList ++ f.PrivateName ++ ": ".toList ++ f.PrivateName ++ ",\n".toList
    else [])).flatten

/-- Template part constructor, on the hit type named name. -/
def constructor (name structName : Str) (fs : List Field) : Str :=
  (if name ≠ "client".toList then
    constructorDocs structName fs ++
    "\nfunc New".toList ++ structName ++ "(".toList ++ constructorParams fs ++
    ") *".toList ++ structName ++ "\t\x7b\n\th := &".toList ++ structName ++ "\x7b\n".toList ++
    constructorBody fs ++ "\t\x7d\n\treturn h\n\x7d".toList
  else []) ++ "\n".toList

/-- Template part clientFuncs, on the hit type named name. -/
def clientFuncs (U : CaseTable) (name : Str) (hitTypeIDs : List Str) : Str :=
  if name = "client".toList then
    "\nfunc (c *Client) setType(h hitType) \x7b\n\tswitch h.(type) \x7b\n".toList ++
    (hitTypeIDs.map (fun id =>
      "\tcase *".toList ++ exportName U id ++ ":\n\t\tc.hitType = \"".toList ++ id ++
        "\"\n".toList)).flatten ++
    "\t\x7d\n\x7d\n".toList
  else []

/-- Template part setterFuncs: one setter per field that is not required. -/
def setterFuncs (structName : Str) (fs : List Field) : Str :=
  (fs.map (fun f =>
    if !f.Required then
      f.Docs ++ "\nfunc (h *".toList ++ structName ++ ") ".toList ++ f.Name ++ "(".toList ++
      f.PrivateName ++ " ".toList ++ f.Typ ++ ") *".toList ++ structName ++
      "\t\x7b\n\th.".toList ++ f.PrivateName ++ " = ".toList ++ f.PrivateName ++
      "\n\th.".toList ++ f.PrivateName ++ "Set = true\n\treturn h\n\x7d\n\n".toList
    else [])).flatten

end buildCode

/-- The text codeTemplate.Execute writes for a hit type: the template returned by
buildCode, executed on h. -/
def buildCode (U : CaseTable) (allFields : List Field) (h : HitType) : Str :=
  "package ga\n\n//WARNING: This file was generated. Do not edit.\n\n//".toList ++
  h.StructName ++ " Hit Type\ntype ".toList ++ h.StructName ++ " struct \x7b\n".toList ++
  buildCode.clientFields h.Name ++ buildCode.fields (fieldsOf allFields h) ++
  "\x7d\n\n".toList ++
  buildCode.constructor h.Name h.StructName (fieldsOf allFields h) ++
  buildCode.clientFuncs U h.Name h.HitTypeIDs ++
  "\n\nfunc (h *".toList ++ h.StructName ++ ") addFields(v url.Values) error \x7b\n".toList ++
  buildCode.params (fieldsOf allFields h) ++ "\treturn nil\n\x7d\n\n".toList ++
  buildCode.setterFuncs h.StructName (fieldsOf allFields h) ++
  "\n\nfunc (h *".toList ++ h.StructName ++ ") Copy() *".toList ++ h.StructName ++
  " \x7b\n\tc := *h\n\treturn &c\n\x7d\n".toList

/-- Function generateFile up to the call of imports.Process, an external formatter: the
name of the file and the rendered code handed to the formatter. -/
def generateFile (U : CaseTable) (allFields : List Field) (h : HitType) : Str × Str :=
  ("type-".toList ++ h.Name ++ ".go".toList, buildCode U allFields h)

/-- Function generate: generateFile on every hit type of the map. -/
def generate (U : CaseTable) (ord : List Str → List Str) (st : State) : List (Str × Str) :=
  (ord (regKeys st.hitTypes)).filterMap
    (fun k => (regGet st.hitTypes k).map (generateFile U st.allFields))

/-! ## Specification-level definitions and example inputs -/

/-- Appending references to the field list of a hit type. -/
def addRefs (refs : List FieldRef) (h : HitType) : HitType :=
  { h with Fields := h.Fields ++ refs }

/-- The references the inner loop of buildTypes appends to the hit type named n for
the field at position i with hit-type list ts. -/
def refsOfField (n : Str) (i : Nat) (ts : List Str) : List FieldRef :=
  List.replicate ((ts.map normType).count n) (FieldRef.decl i)

/-- The references the second loop of buildTypes appends to the hit type named n. -/
def refsFor (n : Str) : Nat → List Field → List FieldRef
  | _, [] => []
  | i, f :: fs => refsOfField n i f.HitTypes ++ refsFor n (i + 1) fs

/-- A field declares the hit type n when n is in its hit-type list, all standing for
client. -/
def declares (f : Field) (n : Str) : Bool := decide (n ∈ f.HitTypes.map normType)

/-- The state buildTypes is called on by parse: the extracted fields and the initial
registry. -/
def extracted (fs : List Field) : State := { allFields := fs, hitTypes := State.init.hitTypes }

/-- The entry of the hit type parameter, with a two-name enumeration. -/
def exHitTypeEntry : Entry :=
  { anchor := "Hit type".toList
    marker := "Required for all hit types.".toList
    docs := "The type of hit. Must be one of 'pageview', 'event'.".toList
    cell0 := "t".toList, cell1 := "text".toList, cell4 := "all".toList }

/-- An optional parameter of the event hit type. -/
def exEventEntry : Entry :=
  { anchor := "Event Action".toList
    marker := "Optional.".toList
    docs := "Specifies the event action. Must not be empty.".toList
    cell0 := "ea".toList, cell1 := "text".toList, cell4 := "event".toList }

/-- An entry naming the same hit type twice. -/
def exTwiceEntry : Entry :=
  { anchor := "Event Label".toList
    cell0 := "el".toList, cell1 := "text".toList, cell4 := "event, event".toList }

/-- An entry naming the base type client itself. -/
def exClientEntry : Entry :=
  { anchor := "Data Source".toList
    cell0 := "ds".toList, cell1 := "text".toList, cell4 := "client".toList }

/-- The declared kinds goType knows. -/
def knownKinds : List Str :=
  ["text".toList, "integer".toList, "boolean".toList, "currency".toList]

/-- An entry whose declared kind is not one goType knows. -/
def exDateEntry : Entry :=
  { anchor := "Queue Time".toList
    cell0 := "qt".toList, cell1 := "date".toList, cell4 := "all".toList }

/-- The text function comment appends to its accumulator for the remaining words,
when the current line holds width bytes. -/
def commentTail : Nat → List Str → Str
  | _, [] => []
  | width, w :: ws =>
    (if width > 55 then "\n//".toList else []) ++ (" ".toList ++ w) ++
      commentTail ((if width > 55 then 0 else width) + (len w + 1)) ws

/-- The words, each preceded by a space. -/
def joinSp (ws : List Str) : Str := (ws.map (fun w => ' ' :: w)).flatten

/-- An entry that is documented as not empty although its table marks it optional,
the sentence occurring twice. -/
def exTwoSentencesEntry : Entry :=
  { anchor := "Document Host Name".toList
    marker := "Optional.".toList
    docs := "Must not be empty. Must not be empty.".toList
    cell0 := "dh".toList, cell1 := "text".toList, cell4 := "all".toList }

/-- The client ID parameter, documented as not empty. -/
def exClientIDEntry : Entry :=
  { anchor := "Client ID".toList
    marker := "Required for all hit types.".toList
    docs := "Identifies a client. Must not be empty.".toList
    cell0 := "cid".toList, cell1 := "text".toList, cell4 := "all".toList }

/-- The protocol version parameter. -/
def exVersionEntry : Entry :=
  { anchor := "Protocol Version".toList
    marker := "Required for all hit types.".toList
    docs := "The protocol version.".toList
    cell0 := "v".toList, cell1 := "text".toList, cell4 := "all".toList }

/-! ### The parameter key read in a single left-to-right scan -/

/-- A span of a parameter key: a literal character, or a placeholder with its name. -/
inductive Piece where
  | lit (c : Char)
  | var (g : Str)
  deriving DecidableEq, Repr

/-- One left-to-right scan of a key collecting the literal characters and the
placeholders <name>; the first argument counts the characters of the last placeholder
that are still to be skipped. -/
def scanPieces : Nat → Str → List Piece
  | _, [] => []
  | k + 1, _ :: rest => scanPieces k rest
  | 0, c :: rest =>
    match matchDelim '<' isAlpha '>' (c :: rest) with
    | some g => Piece.var g :: scanPieces (g.length + 1) rest
    | none => Piece.lit c :: scanPieces 0 rest

/-- The names of the placeholders of a key, left to right. -/
def indexNames (key : Str) : List Str :=
  (scanPieces 0 key).filterMap (fun p => match p with
    | Piece.lit _ => none
    | Piece.var g => some g)

/-- The spans with every placeholder replaced by sub applied to its name. -/
def fillPieces (sub : Str → Str) (ps : List Piece) : Str :=
  (ps.map (fun p => match p with
    | Piece.lit c => [c]
    | Piece.var g => sub g)).flatten

/-- The expression the spec describes: the double-quoted key in which every
placeholder, left to right, is replaced by the splice of its variable. -/
def singleScan (key : Str) : Str :=
  "\"".toList ++ fillPieces spliceVar (scanPieces 0 key) ++ "\"".toList

/-- The key with every placeholder replaced by the value of its variable. -/
def substitute (env : Str → Str) (key : Str) : Str := fillPieces env (scanPieces 0 key)

/-- Positions of the reader of a Go expression made of string literals and selectors
h.name joined by " + ". -/
inductive EvalMode where
  | operand
  | inLit
  | dot
  | ident (v : Str)
  | space1
  | plus
  | space2
  deriving DecidableEq, Repr

/-- Value of a Go expression operand + operand + ... written with single spaces, where
an operand is a string literal free of backslashes, denoting the text between its
quotes, or a selector h.name, denoting env name; none when the text has another
shape. -/
def evalGo (env : Str → Str) : EvalMode → Str → Option Str
  | .operand, c :: r =>
    if c = '"' then evalGo env .inLit r else if c = 'h' then evalGo env .dot r else none
  | .inLit, c :: r =>
    if c = '"' then evalGo env .space1 r
    else if c = '\\' then none
    else (evalGo env .inLit r).map (fun v => c :: v)
  | .dot, c :: r => if c = '.' then evalGo env (.ident []) r else none
  | .ident v, [] => if v = [] then none else some (env v)
  | .ident v, c :: r =>
    if isAlpha c then evalGo env (.ident (v ++ [c])) r
    else if c = ' ' ∧ v ≠ [] then (evalGo env .plus r).map (fun w => env v ++ w)
    else none
  | .space1, [] => some []
  | .space1, c :: r => if c = ' ' then evalGo env .plus r else none
  | .plus, c :: r => if c = '+' then evalGo env .space2 r else none
  | .space2, c :: r => if c = ' ' then evalGo env .operand r else none
  | _, _ => none

/-- An entry whose key has one placeholder. -/
def exFooEntry : Entry :=
  { anchor := "Product ID".toList
    marker := "Optional.".toList
    cell0 := "pr<foo>id".toList, cell1 := "text".toList, cell4 := "all".toList }

/-- A parameter of the event hit type whose key has one placeholder. -/
def exSkuEntry : Entry :=
  { anchor := "Product SKU".toList
    marker := "Optional.".toList
    cell0 := "pr<productIndex>id".toList, cell1 := "text".toList, cell4 := "event".toList }

/-- A parameter of the event hit type whose key has two placeholders. -/
def exImpressionEntry : Entry :=
  { anchor := "Product Impression SKU".toList
    marker := "Optional.".toList
    cell0 := "il<listIndex>pi<productIndex>id".toList
    cell1 := "text".toList, cell4 := "event".toList }

/-- A parameter of the event hit type whose key has two placeholders, one of them new. -/
def exDimensionEntry : Entry :=
  { anchor := "Product Custom Dimension".toList
    marker := "Optional.".toList
    cell0 := "pr<productIndex>cd<dimensionIndex>".toList
    cell1 := "text".toList, cell4 := "event".toList }

/-- A document of four entries. -/
def exDocument : List Entry :=
  [exHitTypeEntry, exSkuEntry, exImpressionEntry, exDimensionEntry]

/-- The state buildTypes leaves for the document above. -/
def exBuilt : State :=
  (buildTypes (parseLoop exDocument []).1 (extracted (parseLoop exDocument []).2)).toOption.getD {}

/-- The fields of the document above after the first loop of process. -/
def exProcessed : List Field :=
  (processFields asciiCase exBuilt.allFields).toOption.getD []

/-- The event hit type of the document above, as process finds it. -/
def exEventHit : HitType := (regGet exBuilt.hitTypes "event".toList).getD {}

/-- The client hit type of the document above, as process finds it. -/
def exClientHit : HitType := (regGet exBuilt.hitTypes "client".toList).getD {}

/-! ### The statements and setters the template renders -/

/-- A statement of the body of addFields: v.Add(key, val), unconditional or guarded by
the is-set flag named guard. -/
structure AddStmt where
  key : Str
  val : Str
  guard : Option Str
  deriving DecidableEq, Repr

/-- The Go text of a statement of addFields. -/
def printAdd (a : AddStmt) : Str :=
  match a.guard with
  | none => "\t\tv.Add(".toList ++ a.key ++ ", ".toList ++ a.val ++ ")\n".toList
  | some g =>
    "\tif h.".toList ++ g ++ " \x7b\n".toList ++
    "\t\tv.Add(".toList ++ a.key ++ ", ".toList ++ a.val ++ ")\n".toList ++
    "\t\x7d\n".toList

/-- A setter method: it assigns its parameter to the member named member and sets the
flag named flag to true. -/
structure Setter where
  docs : Str
  recv : Str
  name : Str
  param : Str
  typ : Str
  member : Str
  flag : Str
  deriving DecidableEq, Repr

/-- The Go text of a setter. -/
def printSetter (m : Setter) : Str :=
  m.docs ++ "\nfunc (h *".toList ++ m.recv ++ ") ".toList ++ m.name ++ "(".toList ++
  m.param ++ " ".toList ++ m.typ ++ ") *".toList ++ m.recv ++ "\t\x7b\n".toList ++
  "\th.".toList ++ m.member ++ " = ".toList ++ m.param ++ "\n".toList ++
  "\th.".toList ++ m.flag ++ " = true\n".toList ++
  "\treturn h\n\x7d\n\n".toList

/-- The is-set flag of a field. -/
def setFlag (f : Field) : Str := f.PrivateName ++ "Set".toList

/-- The statement of addFields a field contributes: none when its Param is empty, an
unconditional one when it is required, one guarded by its own flag otherwise. -/
def addStmtOf (f : Field) : Option AddStmt :=
  if f.Param = [] then none
  else some { key := f.ParamStr, val := buildCode.paramVal f,
              guard := if f.Required then none else some (setFlag f) }

/-- The setter a field contributes: none when it is required. -/
def setterOf (structName : Str) (f : Field) : Option Setter :=
  if f.Required then none
  else some { docs := f.Docs, recv := structName, name := f.Name, param := f.PrivateName,
              typ := f.Typ, member := f.PrivateName, flag := setFlag f }

/-- Two entries of the event hit type with the same display name. -/
def exLabelEntry : Entry :=
  { anchor := "Event Label".toList
    marker := "Optional.".toList
    cell0 := "el".toList, cell1 := "text".toList, cell4 := "event".toList }

/-- A second entry named like the one above, with another key. -/
def exLabelAgainEntry : Entry :=
  { anchor := "Event Label".toList
    marker := "Optional.".toList
    cell0 := "el2".toList, cell1 := "text".toList, cell4 := "event".toList }

/-- A required parameter of the event hit type. -/
def exActionEntry : Entry :=
  { anchor := "Event Action".toList
    marker := "Required for event hit type.".toList
    docs := "Specifies the event action.".toList
    cell0 := "ea".toList, cell1 := "text".toList, cell4 := "event".toList }

/-- The fields of a hit type after the whole of process, for a document. -/
def exFieldsOf (entries : List Entry) (name : Str) : List Field :=
  match run asciiCase id entries with
  | .error _ => []
  | .ok st => fieldsOf st.allFields ((regGet st.hitTypes name).getD {})

/-- The parameter declaration of a field in a constructor. -/
def paramDecl (f : Field) : Str := f.PrivateName ++ " ".toList ++ f.Typ

/-- A parameter of the common type whose name starts with the letters All. -/
def exAllowEntry : Entry :=
  { anchor := "Allow Ad Personalization".toList
    marker := "Optional.".toList
    cell0 := "allow".toList, cell1 := "boolean".toList, cell4 := "all".toList }

/-- A parameter whose name has words in lower case. -/
def exTimingEntry : Entry :=
  { anchor := "User timing category".toList
    marker := "Optional.".toList
    cell0 := "utc".toList, cell1 := "text".toList, cell4 := "timing".toList }

/-- The identifier the spec describes: the text before the first slash, stripped of
its non-letter characters and then export-cased. -/
def specIdentifier (U : CaseTable) (rawName : Str) : Str :=
  exportName U (alpha (rawName.takeWhile (fun c => c != '/')))

/-- A parameter of the event type whose name repeats the name of the type. -/
def exStutterEntry : Entry :=
  { anchor := "Event Event Action".toList
    marker := "Optional.".toList
    cell0 := "eea".toList, cell1 := "text".toList, cell4 := "event".toList }

/-- A piece of the enumeration contains a single-quoted lowercase name. -/
def hasQuotedName (piece : Str) : Prop :=
  ∃ a n b, piece = a ++ Char.ofNat 39 :: (n ++ Char.ofNat 39 :: b) ∧ n ≠ [] ∧
    ∀ c ∈ n, isLowerAZ c = true

/-! ### The lines of a comment -/

/-- The words grouped into the lines function comment writes: cur holds the words of
the current line, width its bytes after the leading slashes. -/
def wrapAux : List Str → Nat → List Str → List (List Str)
  | cur, _, [] => [cur]
  | cur, width, w :: ws =>
    if width > 55 then cur :: wrapAux [w] (len w + 1) ws
    else wrapAux (cur ++ [w]) (width + (len w + 1)) ws

/-- The lines of words of the comment made of the given words. -/
def wrapLines (ws : List Str) : List (List Str) := wrapAux [] 0 ws

/-- The text of one comment line holding the given words. -/
def commentLine (l : List Str) : Str := "//".toList ++ joinSp l

/-- The line break function comment inserts. -/
def lineBreak : Str := "\n//".toList

/-- The text with every occurrence of pat deleted, scanning left to right; the first
argument counts the characters of the last occurrence still to be skipped. -/
def deleteAll (pat : Str) : Nat → Str → Str
  | _, [] => []
  | k + 1, _ :: rest => deleteAll pat k rest
  | 0, c :: rest =>
    if pat.isPrefixOf (c :: rest) then deleteAll pat (pat.length - 1) rest
    else c :: deleteAll pat 0 rest

/-- A description of two words, the first made of 28 letters of two bytes each. -/
def exAccented : Str := List.replicate 28 (Char.ofNat 233) ++ " b".toList

/-! # Lemmas and theorems -/

/-! ## Lemmas: the registry -/

theorem regGet_regSet_self (reg : Registry) (k : Str) (h : HitType) :
    regGet (regSet reg k h) k = some h := by
  induction reg with
  | nil => simp [regSet, regGet]
  | cons p rest ih =>
    obtain ⟨k0, h0⟩ := p
    by_cases hk : k0 = k
    · simp [regSet, regGet, hk]
    · simp [regSet, regGet, hk, ih]

theorem regGet_regSet_ne (reg : Registry) (k k1 : Str) (h : HitType) (hne : k1 ≠ k) :
    regGet (regSet reg k h) k1 = regGet reg k1 := by
  induction reg with
  | nil => simp [regSet, regGet, Ne.symm hne]
  | cons p rest ih =>
    obtain ⟨k0, h0⟩ := p
    by_cases hk : k0 = k
    · subst hk
      simp [regSet, regGet, Ne.symm hne]
    · by_cases hk1 : k0 = k1
      · subst hk1
        simp [regSet, regGet, hk]
      · simp [regSet, regGet, hk, hk1, ih]

theorem addRefs_nil (h : HitType) : addRefs [] h = h := by
  simp [addRefs]

theorem addRefs_addRefs (a b : List FieldRef) (h : HitType) :
    addRefs b (addRefs a h) = addRefs (a ++ b) h := by
  simp [addRefs]

theorem placeField_get (i : Nat) (ts : List Str) (reg reg1 : Registry) (n : Str)
    (h : placeField i ts reg = .ok reg1) :
    regGet reg1 n = (regGet reg n).map (addRefs (refsOfField n i ts)) := by
  induction ts generalizing reg with
  | nil =>
    simp only [placeField, Except.ok.injEq] at h
    subst h
    cases hg : regGet reg n <;> simp [refsOfField, addRefs_nil]
  | cons t ts ih =>
    simp only [placeField] at h
    cases hg : regGet reg (normType t) with
    | none => simp [hg] at h
    | some h0 =>
      simp only [hg] at h
      rw [ih _ h]
      by_cases hn : n = normType t
      · subst hn
        rw [regGet_regSet_self, hg]
        simp only [Option.map_some', refsOfField, List.map_cons, List.count_cons_self]
        have e : { h0 with Fields := h0.Fields ++ [FieldRef.decl i] } =
            addRefs [FieldRef.decl i] h0 := rfl
        rw [e, addRefs_addRefs]
        congr 2
      · rw [regGet_regSet_ne _ _ _ _ hn]
        simp [refsOfField, List.count_cons, Ne.symm hn]

theorem placeAll_get (i : Nat) (fs : List Field) (reg reg1 : Registry) (n : Str)
    (h : placeAll i fs reg = .ok reg1) :
    regGet reg1 n = (regGet reg n).map (addRefs (refsFor n i fs)) := by
  induction fs generalizing reg i with
  | nil =>
    simp only [placeAll, Except.ok.injEq] at h
    subst h
    cases hg : regGet reg n <;> simp [refsFor, addRefs_nil]
  | cons f fs ih =>
    simp only [placeAll] at h
    cases hp : placeField i f.HitTypes reg with
    | error e => simp [hp] at h
    | ok reg0 =>
      simp only [hp] at h
      rw [ih _ _ h, placeField_get _ _ _ _ n hp]
      cases hg : regGet reg n <;> simp [refsFor, addRefs_addRefs]

theorem registerTypes_get (ts : List Str) (reg reg1 : Registry)
    (h : registerTypes ts reg = .ok reg1) (n : Str) (h1 : HitType)
    (hg : regGet reg1 n = some h1) :
    h1 = { Name := n } ∨ regGet reg n = some h1 := by
  induction ts generalizing reg with
  | nil =>
    simp only [registerTypes, Except.ok.injEq] at h
    subst h
    exact Or.inr hg
  | cons t ts ih =>
    simp only [registerTypes] at h
    cases hs : strVar t with
    | error e => simp [hs] at h
    | ok t1 =>
      simp only [hs] at h
      rcases ih _ h with h2 | h2
      · exact Or.inl h2
      · by_cases hn : n = t1
        · subst hn
          rw [regGet_regSet_self] at h2
          exact Or.inl (Option.some.inj h2).symm
        · rw [regGet_regSet_ne _ _ _ _ hn] at h2
          exact Or.inr h2

theorem init_get (n : Str) (h : HitType) (hg : regGet State.init.hitTypes n = some h) :
    h = { Name := n } := by
  unfold State.init regGet at hg
  split at hg
  · next hn =>
    rw [← Option.some.inj hg, ← hn]
  · simp [regGet] at hg

theorem mem_refsFor_ge (n : Str) (i : Nat) (fs : List Field) (r : FieldRef)
    (hr : r ∈ refsFor n i fs) : ∃ k, i ≤ k ∧ r = FieldRef.decl k := by
  induction fs generalizing i with
  | nil => simp [refsFor] at hr
  | cons f fs ih =>
    simp only [refsFor, List.mem_append] at hr
    rcases hr with hr | hr
    · exact ⟨i, le_refl i, (List.mem_replicate.mp hr).2⟩
    · obtain ⟨k, hk, e⟩ := ih (i + 1) hr
      exact ⟨k, by omega, e⟩

theorem count_refsFor (n : Str) (i j : Nat) (fs : List Field) (f : Field)
    (hj : fs[j]? = some f) :
    (refsFor n i fs).count (FieldRef.decl (i + j)) = (f.HitTypes.map normType).count n := by
  induction fs generalizing i j with
  | nil => simp at hj
  | cons g fs ih =>
    simp only [refsFor, List.count_append]
    cases j with
    | zero =>
      simp only [List.getElem?_cons_zero, Option.some.injEq] at hj
      subst hj
      have h0 : (refsFor n (i + 1) fs).count (FieldRef.decl (i + 0)) = 0 := by
        rw [List.count_eq_zero]
        intro hm
        obtain ⟨k, hk, e⟩ := mem_refsFor_ge _ _ _ _ hm
        injection e with e
        omega
      rw [h0]
      simp [refsOfField, List.count_replicate]
    | succ j =>
      simp only [List.getElem?_cons_succ] at hj
      have h0 : (refsOfField n i g.HitTypes).count (FieldRef.decl (i + (j + 1))) = 0 := by
        rw [List.count_eq_zero]
        intro hm
        have e := (List.mem_replicate.mp hm).2
        injection e with e
        omega
      rw [h0, zero_add]
      have e : i + (j + 1) = (i + 1) + j := by omega
      rw [e]
      exact ih (i + 1) j hj

theorem placeField_isSome (i : Nat) (ts : List Str) (reg reg1 : Registry)
    (h : placeField i ts reg = .ok reg1) (t : Str) (ht : t ∈ ts) :
    (regGet reg1 (normType t)).isSome = true := by
  induction ts generalizing reg with
  | nil => simp at ht
  | cons t0 ts ih =>
    have hget := placeField_get i (t0 :: ts) reg reg1 (normType t) h
    simp only [placeField] at h
    cases hg : regGet reg (normType t0) with
    | none => simp [hg] at h
    | some h0 =>
      simp only [hg] at h
      rcases List.mem_cons.mp ht with e | e
      · subst e
        rw [hget, hg]
        rfl
      · exact ih _ h e

theorem placeAll_isSome (i : Nat) (fs : List Field) (reg reg1 : Registry)
    (h : placeAll i fs reg = .ok reg1) (f : Field) (hf : f ∈ fs) (t : Str)
    (ht : t ∈ f.HitTypes) : (regGet reg1 (normType t)).isSome = true := by
  induction fs generalizing reg i with
  | nil => simp at hf
  | cons g fs ih =>
    simp only [placeAll] at h
    cases hp : placeField i g.HitTypes reg with
    | error e => simp [hp] at h
    | ok reg0 =>
      simp only [hp] at h
      rcases List.mem_cons.mp hf with e | e
      · subst e
        have h1 := placeField_isSome _ _ _ _ hp t ht
        rw [placeAll_get _ _ _ _ (normType t) h]
        cases hg : regGet reg0 (normType t) with
        | none => simp [hg] at h1
        | some h0 => rfl
      · exact ih _ _ h e

/-- After buildTypes, run on the initial registry, the field list of a registered hit
type is exactly what the placement loop appended for it. -/
theorem fields_after_buildTypes (docs : Str) (fs : List Field) (st1 : State)
    (h : buildTypes docs { allFields := fs, hitTypes := State.init.hitTypes } = .ok st1)
    (n : Str) (h1 : HitType) (hg : regGet st1.hitTypes n = some h1) :
    h1.Fields = refsFor n 0 fs := by
  unfold buildTypes at h
  split at h
  · simp at h
  · next reg hr =>
    split at h
    · simp at h
    · next reg1 hp =>
      simp only [Except.ok.injEq] at h
      subst h
      simp only at hg hr hp
      rw [placeAll_get _ _ _ _ n hp] at hg
      cases hg0 : regGet reg n with
      | none => simp [hg0] at hg
      | some h0 =>
        simp only [hg0, Option.map_some', Option.some.injEq] at hg
        have hf : h0.Fields = [] := by
          rcases registerTypes_get _ _ _ hr n h0 hg0 with e | e
          · rw [e]
          · rw [init_get n h0 e]
        rw [← hg]
        simp [addRefs, hf]

theorem regKeys_regSet (reg : Registry) (k : Str) (h : HitType) :
    regKeys (regSet reg k h) = if k ∈ regKeys reg then regKeys reg else regKeys reg ++ [k] := by
  induction reg with
  | nil => rfl
  | cons p rest ih =>
    obtain ⟨k0, h0⟩ := p
    have e : regKeys ((k0, h0) :: rest) = k0 :: regKeys rest := rfl
    unfold regSet
    by_cases hk : k0 = k
    · rw [if_pos hk, e, if_pos (by rw [hk]; exact List.mem_cons_self _ _)]
      show k :: regKeys rest = k0 :: regKeys rest
      rw [hk]
    · rw [if_neg hk]
      show k0 :: regKeys (regSet rest k h) = _
      rw [ih, e]
      by_cases hm : k ∈ regKeys rest
      · rw [if_pos hm, if_pos (List.mem_cons_of_mem _ hm)]
      · rw [if_neg hm, if_neg (by
          intro hc
          rcases List.mem_cons.mp hc with e1 | e1
          · exact hk e1.symm
          · exact hm e1)]
        rfl

theorem regSet_nodup (reg : Registry) (k : Str) (h : HitType) (hn : (regKeys reg).Nodup) :
    (regKeys (regSet reg k h)).Nodup := by
  rw [regKeys_regSet]
  by_cases hm : k ∈ regKeys reg
  · rw [if_pos hm]
    exact hn
  · rw [if_neg hm]
    refine List.Nodup.append hn (List.nodup_singleton k) ?_
    intro a ha hak
    rw [List.mem_singleton] at hak
    exact hm (hak ▸ ha)

theorem registerTypes_nodup (ts : List Str) (reg reg1 : Registry)
    (h : registerTypes ts reg = .ok reg1) (hn : (regKeys reg).Nodup) :
    (regKeys reg1).Nodup := by
  induction ts generalizing reg with
  | nil =>
    simp only [registerTypes, Except.ok.injEq] at h
    exact h ▸ hn
  | cons t ts ih =>
    simp only [registerTypes] at h
    cases hs : strVar t with
    | error e => simp [hs] at h
    | ok t1 =>
      simp only [hs] at h
      exact ih _ h (regSet_nodup _ _ _ hn)

theorem placeField_nodup (i : Nat) (ts : List Str) (reg reg1 : Registry)
    (h : placeField i ts reg = .ok reg1) (hn : (regKeys reg).Nodup) :
    (regKeys reg1).Nodup := by
  induction ts generalizing reg with
  | nil =>
    simp only [placeField, Except.ok.injEq] at h
    exact h ▸ hn
  | cons t ts ih =>
    simp only [placeField] at h
    cases hg : regGet reg (normType t) with
    | none => simp [hg] at h
    | some h0 =>
      simp only [hg] at h
      exact ih _ h (regSet_nodup _ _ _ hn)

theorem placeAll_nodup (i : Nat) (fs : List Field) (reg reg1 : Registry)
    (h : placeAll i fs reg = .ok reg1) (hn : (regKeys reg).Nodup) :
    (regKeys reg1).Nodup := by
  induction fs generalizing reg i with
  | nil =>
    simp only [placeAll, Except.ok.injEq] at h
    exact h ▸ hn
  | cons f fs ih =>
    simp only [placeAll] at h
    cases hp : placeField i f.HitTypes reg with
    | error e => simp [hp] at h
    | ok reg0 =>
      simp only [hp] at h
      exact ih _ _ h (placeField_nodup _ _ _ _ hp hn)

/-- The registry buildTypes leaves: one entry per key, each holding a hit type that has
its key as Name, the placed fields as Fields, and nothing else set. -/
theorem buildTypes_wellFormed (docs : Str) (fs : List Field) (st1 : State)
    (h : buildTypes docs (extracted fs) = .ok st1) :
    (regKeys st1.hitTypes).Nodup ∧
    ∀ k h1, regGet st1.hitTypes k = some h1 → h1 = { Name := k, Fields := refsFor k 0 fs } := by
  unfold buildTypes extracted at h
  split at h
  · simp at h
  · next reg hr =>
    split at h
    · simp at h
    · next reg1 hp =>
      simp only [Except.ok.injEq] at h
      subst h
      simp only at hr hp ⊢
      refine ⟨placeAll_nodup _ _ _ _ hp (registerTypes_nodup _ _ _ hr (by decide)), ?_⟩
      intro k h1 hg
      rw [placeAll_get _ _ _ _ k hp] at hg
      cases hg0 : regGet reg k with
      | none => simp [hg0] at hg
      | some h0 =>
        simp only [hg0, Option.map_some', Option.some.injEq] at hg
        have hf : h0 = { Name := k } := by
          rcases registerTypes_get _ _ _ hr k h0 hg0 with e | e
          · exact e
          · exact init_get k h0 e
        rw [← hg, hf]
        simp [addRefs]

theorem count_of_nodup (l : List Str) (a : Str) (hnd : l.Nodup) (hm : a ∈ l) :
    l.count a = 1 := by
  induction l with
  | nil => simp at hm
  | cons b l ih =>
    rw [List.nodup_cons] at hnd
    rw [List.count_cons]
    rcases List.mem_cons.mp hm with e | e
    · subst e
      simp [List.count_eq_zero.mpr hnd.1]
    · have hne : b ≠ a := fun e1 => hnd.1 (e1 ▸ e)
      simp [ih hnd.2 e, hne]

theorem refsFor_of_nodup (n : Str) (i : Nat) (fs : List Field)
    (hnd : ∀ f ∈ fs, (f.HitTypes.map normType).Nodup) :
    refsFor n i fs =
      ((fs.enumFrom i).filter (fun p => declares p.2 n)).map (fun p => FieldRef.decl p.1) := by
  induction fs generalizing i with
  | nil => simp [refsFor]
  | cons f fs ih =>
    have hf := hnd f (List.mem_cons_self _ _)
    have ih1 := ih (i + 1) (fun g hg => hnd g (List.mem_cons_of_mem _ hg))
    simp only [refsFor, List.enumFrom_cons, List.filter_cons, ih1, declares]
    by_cases hm : n ∈ f.HitTypes.map normType
    · have hm1 := hm
      simp only [List.mem_map] at hm1
      simp [refsOfField, count_of_nodup _ _ hf hm, hm1]
    · have hm1 := hm
      simp only [List.mem_map] at hm1
      simp [refsOfField, List.count_eq_zero.mpr hm, hm1]

/-- C1 (amended): after buildTypes succeeds, for every extracted field f (the i-th) and
every name t in f.HitTypes, the hit type named t (all standing for client) is
registered and its Fields holds f once per occurrence of that name in f.HitTypes; it
holds f exactly once when f.HitTypes lists no name twice. -/
theorem buildTypes_field_count (docs : Str) (fs : List Field) (st1 : State)
    (h : buildTypes docs (extracted fs) = .ok st1)
    (i : Nat) (f : Field) (hi : fs[i]? = some f) (t : Str) (ht : t ∈ f.HitTypes) :
    ∃ h1, regGet st1.hitTypes (normType t) = some h1 ∧
      h1.Fields.count (FieldRef.decl i) = (f.HitTypes.map normType).count (normType t) ∧
      ((f.HitTypes.map normType).Nodup → h1.Fields.count (FieldRef.decl i) = 1) := by
  have hsome : (regGet st1.hitTypes (normType t)).isSome = true := by
    unfold buildTypes at h
    split at h
    · simp at h
    · split at h
      · simp at h
      · next reg1 hp =>
        simp only [Except.ok.injEq] at h
        subst h
        exact placeAll_isSome _ _ _ _ hp f (List.getElem?_mem hi) t ht
  obtain ⟨h1, hg⟩ := Option.isSome_iff_exists.mp hsome
  have hF := fields_after_buildTypes docs fs st1 h _ h1 hg
  have hc : h1.Fields.count (FieldRef.decl i) =
      (f.HitTypes.map normType).count (normType t) := by
    rw [hF]
    have := count_refsFor (normType t) 0 i fs f hi
    rwa [zero_add] at this
  refine ⟨h1, hg, hc, fun hnd => ?_⟩
  rw [hc]
  exact count_of_nodup _ _ hnd (List.mem_map_of_mem _ ht)

/-- Witness of buildTypes_field_count: the event parameter of a two-entry document. -/
theorem buildTypes_field_count_witness :
    ∃ h1, regGet
        ((buildTypes (parseLoop [exHitTypeEntry, exEventEntry] []).1
          (extracted (parseLoop [exHitTypeEntry, exEventEntry] []).2)).toOption.getD {}).hitTypes
        (normType "event".toList) = some h1 ∧
      h1.Fields.count (FieldRef.decl 1) =
        ((rawField exEventEntry).HitTypes.map normType).count (normType "event".toList) ∧
      (((rawField exEventEntry).HitTypes.map normType).Nodup →
        h1.Fields.count (FieldRef.decl 1) = 1) :=
  buildTypes_field_count (parseLoop [exHitTypeEntry, exEventEntry] []).1
    (parseLoop [exHitTypeEntry, exEventEntry] []).2 _ rfl 1 (rawField exEventEntry)
    rfl "event".toList (by decide)

/-- C1 (as stated) fails: a field whose hit-type cell reads event, event is placed twice
in the Fields of the event type. -/
theorem buildTypes_field_count_counterexample :
    (parseLoop [exHitTypeEntry, exTwiceEntry] []).2[1]? = some (rawField exTwiceEntry) ∧
    "event".toList ∈ (rawField exTwiceEntry).HitTypes ∧
    (buildTypes (parseLoop [exHitTypeEntry, exTwiceEntry] []).1
        (extracted (parseLoop [exHitTypeEntry, exTwiceEntry] []).2)).map
      (fun st => (regGet st.hitTypes "event".toList).map
        (fun h => h.Fields.count (FieldRef.decl 1))) = .ok (some 2) :=
  ⟨rfl, by decide, rfl⟩

/-- C2 (amended): after buildTypes succeeds, provided no field lists a hit type twice
(all counting as client), the Fields of every registered hit type n is, in the order of
allFields, exactly the fields that declare n; the fields that declare client are those
listing all or client itself, and any other name is declared by listing it. -/
theorem buildTypes_fields_in_order (docs : Str) (fs : List Field) (st1 : State)
    (h : buildTypes docs (extracted fs) = .ok st1)
    (hnd : ∀ f ∈ fs, (f.HitTypes.map normType).Nodup)
    (n : Str) (h1 : HitType) (hg : regGet st1.hitTypes n = some h1) :
    h1.Fields = ((fs.enum.filter (fun p => declares p.2 n)).map (fun p => FieldRef.decl p.1)) ∧
    (∀ f : Field, declares f "client".toList = true ↔
      ("all".toList ∈ f.HitTypes ∨ "client".toList ∈ f.HitTypes)) ∧
    (∀ f : Field, n ≠ "client".toList → n ≠ "all".toList →
      (declares f n = true ↔ n ∈ f.HitTypes)) := by
  refine ⟨?_, ?_, ?_⟩
  · rw [fields_after_buildTypes docs fs st1 h n h1 hg, refsFor_of_nodup n 0 fs hnd]
    rfl
  · intro f
    simp only [declares, decide_eq_true_eq, List.mem_map, normType]
    constructor
    · rintro ⟨t, ht, e⟩
      by_cases ha : t = "all".toList
      · exact Or.inl (ha ▸ ht)
      · rw [if_neg ha] at e
        exact Or.inr (e ▸ ht)
    · rintro (ht | ht)
      · exact ⟨_, ht, if_pos rfl⟩
      · exact ⟨_, ht, by decide⟩
  · intro f hc ha
    simp only [declares, decide_eq_true_eq, List.mem_map, normType]
    constructor
    · rintro ⟨t, ht, e⟩
      by_cases hta : t = "all".toList
      · rw [if_pos hta] at e
        exact absurd e.symm hc
      · rw [if_neg hta] at e
        exact e ▸ ht
    · intro ht
      exact ⟨n, ht, if_neg ha⟩

/-- Witness of buildTypes_fields_in_order: the event type of a two-entry document. -/
theorem buildTypes_fields_in_order_witness :
    [FieldRef.decl 1] = (((parseLoop [exHitTypeEntry, exEventEntry] []).2.enum.filter
        (fun p => declares p.2 "event".toList)).map (fun p => FieldRef.decl p.1)) ∧
    (∀ f : Field, declares f "client".toList = true ↔
      ("all".toList ∈ f.HitTypes ∨ "client".toList ∈ f.HitTypes)) ∧
    (∀ f : Field, "event".toList ≠ "client".toList → "event".toList ≠ "all".toList →
      (declares f "event".toList = true ↔ "event".toList ∈ f.HitTypes)) :=
  buildTypes_fields_in_order (parseLoop [exHitTypeEntry, exEventEntry] []).1
    (parseLoop [exHitTypeEntry, exEventEntry] []).2
    ((buildTypes (parseLoop [exHitTypeEntry, exEventEntry] []).1
      (extracted (parseLoop [exHitTypeEntry, exEventEntry] []).2)).toOption.getD {})
    rfl (by decide) "event".toList
    { Name := "event".toList, Fields := [FieldRef.decl 1] } rfl

/-- C2 (as stated) fails: a field whose hit-type cell reads client is put in the Fields
of client although it is not declared all; and a field whose cell reads event, event
stands twice in the Fields of event. -/
theorem buildTypes_fields_in_order_counterexample :
    (rawField exClientEntry).HitTypes = ["client".toList] ∧
    "all".toList ∉ (rawField exClientEntry).HitTypes ∧
    (buildTypes (parseLoop [exHitTypeEntry, exClientEntry, exTwiceEntry] []).1
        (extracted (parseLoop [exHitTypeEntry, exClientEntry, exTwiceEntry] []).2)).map
      (fun st => ((regGet st.hitTypes "client".toList).map HitType.Fields,
        (regGet st.hitTypes "event".toList).map HitType.Fields)) =
      .ok (some [FieldRef.decl 0, FieldRef.decl 1],
        some [FieldRef.decl 2, FieldRef.decl 2]) :=
  ⟨rfl, by decide, rfl⟩

theorem regGet_regSet_isSome (reg : Registry) (k n : Str) (h : HitType) :
    (regGet (regSet reg k h) n).isSome = true ↔ (n = k ∨ (regGet reg n).isSome = true) := by
  by_cases hn : n = k
  · subst hn
    simp [regGet_regSet_self]
  · simp [regGet_regSet_ne _ _ _ _ hn, hn]

theorem registerTypes_ok (ts : List Str) (reg : Registry)
    (hp : ∀ piece ∈ ts, ∃ t, strVar piece = .ok t) :
    ∃ reg1, registerTypes ts reg = .ok reg1 := by
  induction ts generalizing reg with
  | nil => exact ⟨reg, rfl⟩
  | cons t ts ih =>
    obtain ⟨t1, ht1⟩ := hp t (List.mem_cons_self _ _)
    obtain ⟨reg1, h1⟩ := ih (regSet reg t1 { Name := t1 })
      (fun piece hm => hp piece (List.mem_cons_of_mem _ hm))
    exact ⟨reg1, by simp only [registerTypes, ht1]; exact h1⟩

theorem registerTypes_isSome (ts : List Str) (reg reg1 : Registry)
    (h : registerTypes ts reg = .ok reg1) (n : Str) :
    (regGet reg1 n).isSome = true ↔
      ((regGet reg n).isSome = true ∨ ∃ piece ∈ ts, strVar piece = .ok n) := by
  induction ts generalizing reg with
  | nil =>
    simp only [registerTypes, Except.ok.injEq] at h
    subst h
    simp
  | cons t ts ih =>
    simp only [registerTypes] at h
    cases hs : strVar t with
    | error e => simp [hs] at h
    | ok t1 =>
      simp only [hs] at h
      rw [ih _ h, regGet_regSet_isSome]
      constructor
      · rintro ((e | e) | ⟨piece, hm, e⟩)
        · exact Or.inr ⟨t, List.mem_cons_self _ _, e ▸ hs⟩
        · exact Or.inl e
        · exact Or.inr ⟨piece, List.mem_cons_of_mem _ hm, e⟩
      · rintro (e | ⟨piece, hm, e⟩)
        · exact Or.inl (Or.inr e)
        · rcases List.mem_cons.mp hm with e1 | e1
          · subst e1
            rw [hs] at e
            injection e with e
            exact Or.inl (Or.inl e.symm)
          · exact Or.inr ⟨piece, e1, e⟩

theorem placeField_error_iff (i : Nat) (ts : List Str) (reg : Registry) :
    (∃ e, placeField i ts reg = .error e) ↔ ∃ t ∈ ts, regGet reg (normType t) = none := by
  induction ts generalizing reg with
  | nil => simp [placeField]
  | cons t ts ih =>
    simp only [placeField]
    cases hg : regGet reg (normType t) with
    | none =>
      simp only [List.mem_cons, exists_eq_or_imp, hg, true_or, iff_true]
      exact ⟨_, rfl⟩
    | some h0 =>
      simp only [List.mem_cons, exists_eq_or_imp, hg, false_or]
      rw [ih]
      have key : ∀ n, regGet (regSet reg (normType t)
          { h0 with Fields := h0.Fields ++ [FieldRef.decl i] }) n = none ↔
          regGet reg n = none := by
        intro n
        by_cases hn : n = normType t
        · subst hn
          simp [regGet_regSet_self, hg]
        · rw [regGet_regSet_ne _ _ _ _ hn]
      simp only [key]
      simp

theorem placeAll_error_iff (i : Nat) (fs : List Field) (reg : Registry) :
    (∃ e, placeAll i fs reg = .error e) ↔
      ∃ f ∈ fs, ∃ t ∈ f.HitTypes, regGet reg (normType t) = none := by
  induction fs generalizing reg i with
  | nil => simp [placeAll]
  | cons f fs ih =>
    simp only [placeAll]
    cases hp : placeField i f.HitTypes reg with
    | error e =>
      have h1 := (placeField_error_iff i f.HitTypes reg).mp ⟨e, hp⟩
      simp only [List.mem_cons, exists_eq_or_imp]
      exact ⟨fun _ => Or.inl h1, fun _ => ⟨e, rfl⟩⟩
    | ok reg0 =>
      have h1 : ¬ ∃ t ∈ f.HitTypes, regGet reg (normType t) = none := by
        intro hx
        obtain ⟨e, he⟩ := (placeField_error_iff i f.HitTypes reg).mpr hx
        rw [hp] at he
        cases he
      have key : ∀ n, regGet reg0 n = none ↔ regGet reg n = none := by
        intro n
        rw [placeField_get _ _ _ _ n hp]
        cases regGet reg n <;> simp
      simp only [List.mem_cons, exists_eq_or_imp, h1, false_or]
      rw [ih]
      simp only [key]

theorem init_isSome (n : Str) :
    (regGet State.init.hitTypes n).isSome = true ↔ n = "client".toList := by
  constructor
  · intro h
    by_contra hne
    unfold State.init regGet at h
    rw [if_neg (Ne.symm hne)] at h
    simp [regGet] at h
  · intro h
    subst h
    rfl

/-- C3 (amended): when every comma-separated piece of the enumeration holds a quoted
name, buildTypes aborts exactly when some field's HitTypes list contains a name other
than all and other than the pre-registered client that is absent from the enumeration;
otherwise it succeeds. -/
theorem buildTypes_abort_iff (docs : Str) (fs : List Field)
    (hp : ∀ piece ∈ Split docs ",".toList, ∃ t, strVar piece = .ok t) :
    ((∃ e, buildTypes docs (extracted fs) = .error e) ↔
      ∃ f ∈ fs, ∃ t ∈ f.HitTypes, t ≠ "all".toList ∧ t ≠ "client".toList ∧
        ∀ piece ∈ Split docs ",".toList, strVar piece ≠ .ok t) ∧
    ((¬ ∃ f ∈ fs, ∃ t ∈ f.HitTypes, t ≠ "all".toList ∧ t ≠ "client".toList ∧
        ∀ piece ∈ Split docs ",".toList, strVar piece ≠ .ok t) →
      ∃ st1, buildTypes docs (extracted fs) = .ok st1) := by
  obtain ⟨reg, hr⟩ := registerTypes_ok (Split docs ",".toList) State.init.hitTypes hp
  have hkeys : ∀ t, regGet reg (normType t) = none ↔
      (t ≠ "all".toList ∧ t ≠ "client".toList ∧
        ∀ piece ∈ Split docs ",".toList, strVar piece ≠ .ok t) := by
    intro t
    have h1 := registerTypes_isSome _ _ _ hr (normType t)
    rw [init_isSome] at h1
    rw [← Option.not_isSome_iff_eq_none, h1]
    by_cases ha : t = "all".toList
    · have e : normType "all".toList = "client".toList := rfl
      rw [ha, e]
      constructor
      · intro hx
        exact absurd (Or.inl rfl) hx
      · rintro ⟨hx, _⟩
        exact absurd rfl hx
    · have e : normType t = t := if_neg ha
      rw [e]
      constructor
      · intro hx
        exact ⟨ha, fun hc => hx (Or.inl hc), fun piece hm hs => hx (Or.inr ⟨piece, hm, hs⟩)⟩
      · rintro ⟨_, hc, hall⟩ (hx | ⟨piece, hm, hs⟩)
        · exact hc hx
        · exact hall piece hm hs
  have hiff : (∃ e, buildTypes docs (extracted fs) = .error e) ↔
      ∃ f ∈ fs, ∃ t ∈ f.HitTypes, t ≠ "all".toList ∧ t ≠ "client".toList ∧
        ∀ piece ∈ Split docs ",".toList, strVar piece ≠ .ok t := by
    have h2 := placeAll_error_iff 0 fs reg
    simp only [hkeys] at h2
    rw [← h2]
    unfold buildTypes extracted
    simp only [hr]
    cases placeAll 0 fs reg <;> simp
  refine ⟨hiff, fun hno => ?_⟩
  cases hb : buildTypes docs (extracted fs) with
  | error e => exact absurd (hiff.mp ⟨e, hb⟩) hno
  | ok st1 => exact ⟨st1, rfl⟩

/-- Witness of buildTypes_abort_iff: a two-entry document whose names are all
enumerated. -/
theorem buildTypes_abort_iff_witness :
    ((∃ e, buildTypes (parseLoop [exHitTypeEntry, exEventEntry] []).1
        (extracted (parseLoop [exHitTypeEntry, exEventEntry] []).2) = .error e) ↔
      ∃ f ∈ (parseLoop [exHitTypeEntry, exEventEntry] []).2, ∃ t ∈ f.HitTypes,
        t ≠ "all".toList ∧ t ≠ "client".toList ∧
        ∀ piece ∈ Split (parseLoop [exHitTypeEntry, exEventEntry] []).1 ",".toList,
          strVar piece ≠ .ok t) ∧
    ((¬ ∃ f ∈ (parseLoop [exHitTypeEntry, exEventEntry] []).2, ∃ t ∈ f.HitTypes,
        t ≠ "all".toList ∧ t ≠ "client".toList ∧
        ∀ piece ∈ Split (parseLoop [exHitTypeEntry, exEventEntry] []).1 ",".toList,
          strVar piece ≠ .ok t) →
      ∃ st1, buildTypes (parseLoop [exHitTypeEntry, exEventEntry] []).1
        (extracted (parseLoop [exHitTypeEntry, exEventEntry] []).2) = .ok st1) :=
  buildTypes_abort_iff (parseLoop [exHitTypeEntry, exEventEntry] []).1
    (parseLoop [exHitTypeEntry, exEventEntry] []).2
    (fun piece hm => by
      have hs : Split (parseLoop [exHitTypeEntry, exEventEntry] []).1 ",".toList =
          ["The type of hit. Must be one of 'pageview'".toList, " 'event'.".toList] := by
        decide
      rw [hs] at hm
      rcases List.mem_cons.mp hm with e | e
      · exact ⟨"pageview".toList, by rw [e]; rfl⟩
      · exact ⟨"event".toList, by rw [List.mem_singleton.mp e]; rfl⟩)

/-- C3 (as stated) fails in both directions: a field listing client, a name that is
not all and that no piece of the enumeration yields, does not abort buildTypes; and an
empty enumeration aborts it although there is no field at all. -/
theorem buildTypes_abort_iff_counterexample :
    ((rawField exClientEntry).HitTypes = ["client".toList] ∧
      (Split (parseLoop [exHitTypeEntry, exClientEntry] []).1 ",".toList).map
        (fun piece => (strVar piece).toOption) =
        [some "pageview".toList, some "event".toList] ∧
      (buildTypes (parseLoop [exHitTypeEntry, exClientEntry] []).1
        (extracted (parseLoop [exHitTypeEntry, exClientEntry] []).2)).toBool = true) ∧
    buildTypes [] (extracted []) =
      .error "''([a-z]+)'' should match '' exactly once".toList :=
  ⟨⟨rfl, by decide, rfl⟩, rfl⟩

theorem parseLoop_foldl (entries : List Entry) (d : Str) (fs0 : List Field) :
    entries.foldl parseEach (d, fs0) =
      (((((entries.map rawField).filter
          (fun f => decide (f.Name = "Hit type".toList))).getLast?).map Field.Docs).getD d,
        fs0 ++ entries.map rawField) := by
  induction entries generalizing d fs0 with
  | nil => simp
  | cons e es ih =>
    rw [List.foldl_cons, parseEach, ih]
    by_cases hn : (rawField e).Name = "Hit type".toList
    · simp only [hn, if_true, List.map_cons, List.filter_cons, decide_True, List.append_assoc,
        List.singleton_append, List.getLast?_cons, Option.map_some', Option.getD_some]
      cases ((es.map rawField).filter (fun f => decide (f.Name = "Hit type".toList))).getLast?
        <;> simp
    · simp only [hn, if_false, List.map_cons, List.filter_cons, decide_False, List.append_assoc,
        List.singleton_append]
      simp

theorem parseLoop_allFields (entries : List Entry) (fs0 : List Field) :
    (parseLoop entries fs0).2 = fs0 ++ entries.map rawField := by
  unfold parseLoop
  rw [parseLoop_foldl]

/-- C4 (amended): during extraction every entry, the one whose display name is
Hit type included, is added to allFields exactly once, in document order; the
description of the last entry named Hit type (empty if there is none) is captured as
the hit-type enumeration. -/
theorem parseLoop_spec (entries : List Entry) (fs0 : List Field) :
    (parseLoop entries fs0).2 = fs0 ++ entries.map rawField ∧
    (parseLoop entries fs0).1 =
      ((((entries.map rawField).filter
        (fun f => decide (f.Name = "Hit type".toList))).getLast?).map Field.Docs).getD [] := by
  unfold parseLoop
  rw [parseLoop_foldl]
  exact ⟨rfl, rfl⟩

/-- C4 (as stated) fails: the entry named Hit type is itself appended to allFields. -/
theorem parseLoop_counterexample :
    (rawField exHitTypeEntry).Name = "Hit type".toList ∧
    (parseLoop [exHitTypeEntry] []).2 = [rawField exHitTypeEntry] ∧
    (parseLoop [exHitTypeEntry] []).1 = (rawField exHitTypeEntry).Docs :=
  ⟨by decide, rfl, rfl⟩

theorem goType_unknown (k : Str) (hk : k ∉ knownKinds) :
    goType k = .error ("Unknown GA Type: ".toList ++ k) := by
  simp only [knownKinds, List.mem_cons, List.mem_singleton, List.not_mem_nil, or_false,
    not_or] at hk
  obtain ⟨h1, h2, h3, h4⟩ := hk
  unfold goType
  rw [if_neg h1, if_neg h2, if_neg h3, if_neg h4]

theorem processNames_Typ (U : CaseTable) (f : Field) (name : Str) :
    (processNames U f name).Typ = f.Typ := by
  unfold processNames
  simp only
  split_ifs <;> rfl

theorem processNames_Param (U : CaseTable) (f : Field) (name : Str) :
    (processNames U f name).Param = f.Param := by
  unfold processNames
  simp only
  split_ifs <;> rfl

theorem processNames_Indices (U : CaseTable) (f : Field) (name : Str) :
    (processNames U f name).Indices = f.Indices := by
  unfold processNames
  simp only
  split_ifs <;> rfl

theorem processField_unknown (U : CaseTable) (f : Field) (hk : f.Typ ∉ knownKinds) :
    ∃ e, processField U f = .error e := by
  unfold processField
  cases derivedName U f with
  | error e => exact ⟨e, rfl⟩
  | ok name =>
    simp only [processNames_Typ, goType_unknown _ hk]
    exact ⟨_, rfl⟩

theorem processFields_error (U : CaseTable) (fs : List Field)
    (h : ∃ f ∈ fs, ∃ e, processField U f = .error e) :
    ∃ e, processFields U fs = .error e := by
  induction fs with
  | nil => simp at h
  | cons g fs ih =>
    unfold processFields
    cases hg : processField U g with
    | error e => exact ⟨e, rfl⟩
    | ok g1 =>
      obtain ⟨f, hf, e, he⟩ := h
      rcases List.mem_cons.mp hf with e1 | e1
      · subst e1
        rw [hg] at he
        cases he
      · obtain ⟨e2, he2⟩ := ih ⟨f, e1, e, he⟩
        simp only [he2]
        exact ⟨e2, rfl⟩

theorem buildTypes_allFields (docs : Str) (st st1 : State) (h : buildTypes docs st = .ok st1) :
    st1.allFields = st.allFields := by
  unfold buildTypes at h
  split at h
  · simp at h
  · split at h
    · simp at h
    · simp only [Except.ok.injEq] at h
      subst h
      rfl

/-- C5: goType maps text to string, integer to int64, boolean to bool and currency to
float64, and aborts on every other string; so processField aborts on a field with any
other declared kind, process then aborts before it reaches generate, and so does the
run on a document with such an entry. -/
theorem goType_spec :
    goType "text".toList = .ok "string".toList ∧
    goType "integer".toList = .ok "int64".toList ∧
    goType "boolean".toList = .ok "bool".toList ∧
    goType "currency".toList = .ok "float64".toList ∧
    (∀ k : Str, k ∉ knownKinds → goType k = .error ("Unknown GA Type: ".toList ++ k)) ∧
    (∀ (U : CaseTable) (f : Field), f.Typ ∉ knownKinds → ∃ e, processField U f = .error e) ∧
    (∀ (U : CaseTable) (ord : List Str → List Str) (st : State),
      (∃ f ∈ st.allFields, f.Typ ∉ knownKinds) → ∃ e, process U ord st = .error e) ∧
    (∀ (U : CaseTable) (ord : List Str → List Str) (entries : List Entry),
      (∃ en ∈ entries, trim en.cell1 ∉ knownKinds) → ∃ e, run U ord entries = .error e) := by
  have hproc : ∀ (U : CaseTable) (ord : List Str → List Str) (st : State),
      (∃ f ∈ st.allFields, f.Typ ∉ knownKinds) → ∃ e, process U ord st = .error e := by
    intro U ord st ⟨f, hf, hk⟩
    obtain ⟨e, he⟩ := processFields_error U st.allFields ⟨f, hf, processField_unknown U f hk⟩
    exact ⟨e, by unfold process; rw [he]⟩
  refine ⟨rfl, rfl, rfl, rfl, goType_unknown, processField_unknown, hproc, ?_⟩
  intro U ord entries ⟨en, hen, hk⟩
  unfold run
  cases hb : buildTypes (parseLoop entries State.init.allFields).1
      { State.init with allFields := (parseLoop entries State.init.allFields).2 } with
  | error e => exact ⟨e, rfl⟩
  | ok st =>
    apply hproc
    rw [buildTypes_allFields _ _ _ hb]
    refine ⟨rawField en, ?_, hk⟩
    rw [parseLoop_allFields]
    exact List.mem_append_right _ (List.mem_map_of_mem _ hen)

/-- Witness of goType_spec: a document with an entry of kind date. -/
theorem goType_spec_witness :
    goType "date".toList = .error "Unknown GA Type: date".toList ∧
    (∃ e, processField asciiCase (rawField exDateEntry) = .error e) ∧
    (∃ e, run asciiCase id [exHitTypeEntry, exDateEntry] = .error e) :=
  ⟨goType_spec.2.2.2.2.1 "date".toList (by decide),
   goType_spec.2.2.2.2.2.1 asciiCase (rawField exDateEntry) (by decide),
   goType_spec.2.2.2.2.2.2.2 asciiCase id [exHitTypeEntry, exDateEntry]
     ⟨exDateEntry, by simp, by decide⟩⟩

/-! ## Lemmas: strings -/

theorem Contains_iff (s sub : Str) : Contains s sub = true ↔ sub <:+: s := by
  induction s with
  | nil => simp [Contains, List.isPrefixOf_iff_prefix]
  | cons c rest ih =>
    simp only [Contains, Bool.or_eq_true, List.isPrefixOf_iff_prefix, ih, List.infix_cons_iff]

theorem Contains_eq_false_iff (s sub : Str) : Contains s sub = false ↔ ¬ sub <:+: s := by
  rw [← Contains_iff]
  simp

theorem trim_within (s : Str) : trim s <:+: s := by
  unfold trim
  have h1 : (s.dropWhile isSpace) <:+ s := List.dropWhile_suffix _
  have h2 : ((s.dropWhile isSpace).reverse.dropWhile isSpace) <:+
      (s.dropWhile isSpace).reverse := List.dropWhile_suffix _
  have h3 : ((s.dropWhile isSpace).reverse.dropWhile isSpace).reverse <+:
      s.dropWhile isSpace := by
    have := List.reverse_prefix.mpr h2
    rwa [List.reverse_reverse] at this
  exact h3.isInfix.trans h1.isInfix

theorem infix_sep (n a b : Str) (c : Char) (hc : c ∉ n) (h : n <:+: a ++ c :: b) :
    n <:+: a ∨ n <:+: b := by
  induction a with
  | nil =>
    rw [List.nil_append, List.infix_cons_iff, List.prefix_cons_iff] at h
    rcases h with (e | ⟨t, e, _⟩) | h
    · exact Or.inr (e ▸ List.nil_infix)
    · exact absurd (e ▸ List.mem_cons_self c t) hc
    · exact Or.inr h
  | cons x a ih =>
    rw [List.cons_append, List.infix_cons_iff] at h
    rcases h with h | h
    · left
      have hx : (x :: a) <+: x :: (a ++ c :: b) := List.prefix_append (x :: a) (c :: b)
      rcases List.prefix_or_prefix_of_prefix h hx with h1 | h1
      · exact h1.isInfix
      · obtain ⟨z, hz⟩ := h1
        rw [← hz, ← List.cons_append, List.prefix_append_right_inj,
          List.prefix_cons_iff] at h
        rcases h with e | ⟨t, e, _⟩
        · rw [← hz, e, List.append_nil]
        · exfalso
          apply hc
          rw [← hz, e]
          simp
    · rcases ih h with h1 | h1
      · exact Or.inl (List.infix_cons h1)
      · exact Or.inr h1

theorem infix_drop_head (n s : Str) (c : Char) (hc : n.head? ≠ some c) (hn : n ≠ [])
    (h : n <:+: c :: s) : n <:+: s := by
  rw [List.infix_cons_iff, List.prefix_cons_iff] at h
  rcases h with (e | ⟨t, e, _⟩) | h
  · exact absurd e hn
  · rw [e] at hc
    exact absurd rfl hc
  · exact h

theorem splitAux_ne_nil (sep : Str) (k : Nat) (s : Str) : splitAux sep k s ≠ [] := by
  induction s generalizing k with
  | nil => simp [splitAux]
  | cons c rest ih =>
    cases k with
    | succ k => simpa [splitAux] using ih k
    | zero =>
      simp only [splitAux]
      split_ifs
      · simp
      · cases h : splitAux sep 0 rest <;> simp [consHead]

theorem joinSp_cons (w : Str) (ws : List Str) : joinSp (w :: ws) = ' ' :: (w ++ joinSp ws) := by
  simp [joinSp]

theorem Split_space (s : Str) : Split s " ".toList = splitAux [' '] 0 s := by
  unfold Split
  rw [if_neg (by decide)]
  rfl

theorem joinSp_split_space (s : Str) : joinSp (Split s " ".toList) = ' ' :: s := by
  rw [Split_space]
  induction s with
  | nil => rfl
  | cons c rest ih =>
    simp only [splitAux]
    by_cases hc : c = ' '
    · subst hc
      have e : List.isPrefixOf [' '] (' ' :: rest) = true := by
        simp [List.isPrefixOf]
      rw [if_pos e]
      have e2 : [' '].length - 1 = 0 := rfl
      rw [e2, joinSp_cons, ih]
      rfl
    · have e : ¬ List.isPrefixOf [' '] (c :: rest) = true := by
        simp [List.isPrefixOf, Ne.symm hc]
      rw [if_neg e]
      cases hs : splitAux [' '] 0 rest with
      | nil => exact absurd hs (splitAux_ne_nil _ _ _)
      | cons w ws =>
        rw [hs, joinSp_cons] at ih
        have e3 : w ++ joinSp ws = rest := by
          injection ih
        simp only [consHead, joinSp_cons, List.cons_append, e3]

theorem comment_foldl (ws : List Str) (c : Str) (width : Nat) :
    (ws.foldl commentStep (c, width)).1 = c ++ commentTail width ws := by
  induction ws generalizing c width with
  | nil => simp [commentTail]
  | cons w ws ih =>
    rw [List.foldl_cons]
    by_cases hw : width > 55
    · simp only [commentStep, if_pos hw, ih, commentTail, List.append_assoc]
    · simp only [commentStep, if_neg hw, ih, commentTail, List.append_assoc, List.nil_append]

theorem comment_eq (s : Str) :
    comment s = "//".toList ++ commentTail 0 (Split s " ".toList) := by
  unfold comment
  rw [comment_foldl]

theorem commentTail_within (n : Str) (hnl : '\n' ∉ n) (hsl : '/' ∉ n) (p : Str) (width : Nat)
    (ws : List Str) (h : n <:+: p ++ commentTail width ws) : n <:+: p ++ joinSp ws := by
  induction ws generalizing p width with
  | nil => simpa [commentTail, joinSp] using h
  | cons w ws ih =>
    by_cases hw : width > 55
    · have e : p ++ commentTail width (w :: ws) =
          p ++ '\n' :: ([] ++ '/' :: ([] ++ '/' :: ((' ' :: w) ++
            commentTail (0 + (len w + 1)) ws))) := by
        simp only [commentTail, if_pos hw]
        rfl
      rw [e] at h
      rcases infix_sep _ _ _ _ hnl h with h1 | h1
      · exact h1.trans (List.prefix_append _ _).isInfix
      · have hnil : n <:+: ([] : Str) → n <:+: p ++ joinSp (w :: ws) := by
          intro h0
          rw [List.infix_nil.mp h0]
          exact List.nil_infix
        rcases infix_sep _ _ _ _ hsl h1 with h2 | h2
        · exact hnil h2
        · rcases infix_sep _ _ _ _ hsl h2 with h3 | h3
          · exact hnil h3
          · have h4 := ih _ _ h3
            rw [joinSp_cons]
            exact h4.trans (List.suffix_append _ _).isInfix
    · have e : p ++ commentTail width (w :: ws) =
          (p ++ ' ' :: w) ++ commentTail (width + (len w + 1)) ws := by
        simp only [commentTail, if_neg hw]
        simp
      rw [e] at h
      have h4 := ih _ _ h
      rw [joinSp_cons]
      simpa using h4

/-- A text free of line breaks and slashes that does not start with a space occurs in
comment(s) only if it occurs in s. -/
theorem comment_within (n s : Str) (hne : n ≠ []) (hsp : n.head? ≠ some ' ') (hnl : '\n' ∉ n)
    (hsl : '/' ∉ n) (h : n <:+: comment s) : n <:+: s := by
  rw [comment_eq] at h
  have h1 := commentTail_within n hnl hsl _ _ _ h
  rw [joinSp_split_space] at h1
  have e : "//".toList ++ ' ' :: s = [] ++ '/' :: ([] ++ '/' :: (' ' :: s)) := rfl
  rw [e] at h1
  have hnil : ¬ n <:+: ([] : Str) := fun h0 => hne (List.infix_nil.mp h0)
  rcases infix_sep _ _ _ _ hsl h1 with h2 | h2
  · exact absurd h2 hnil
  · rcases infix_sep _ _ _ _ hsl h2 with h3 | h3
    · exact absurd h3 hnil
    · exact infix_drop_head n s ' ' hsp hne h3

/-! ## Lemmas: processField -/

theorem processNames_Required (U : CaseTable) (f : Field) (name : Str) :
    (processNames U f name).Required =
      if Contains f.Docs mustNotBeEmpty = true then true
      else if name = "ProtocolVersion".toList ∨ name = "ClientID".toList then false
      else f.Required := by
  unfold processNames
  simp only
  split_ifs <;> rfl

theorem processNames_Docs (U : CaseTable) (f : Field) (name : Str) :
    (processNames U f name).Docs =
      comment (trim (if Contains f.Docs mustNotBeEmpty = true
        then replaceFirst f.Docs mustNotBeEmpty [] else f.Docs)) := by
  unfold processNames
  simp only
  split_ifs <;> rfl

theorem processNames_Name (U : CaseTable) (f : Field) (name : Str) :
    (processNames U f name).Name =
      if name = "HitType".toList then FirstRuneToLower U name else name := by
  unfold processNames
  simp only
  split_ifs <;> rfl

/-- The shape of a successful processField. -/
theorem processField_ok (U : CaseTable) (f f1 : Field) (h : processField U f = .ok f1) :
    ∃ name ty acc, derivedName U f = .ok name ∧ goType f.Typ = .ok ty ∧
      paramLoop (indexMatcherFindAll f.Param)
        (f.Indices, "\"".toList ++ f.Param ++ "\"".toList) = .ok acc ∧
      f1 = { processNames U f name with Typ := ty, Indices := acc.1, ParamStr := acc.2 } := by
  unfold processField at h
  split at h
  · simp at h
  · next name hd =>
    simp only [processNames_Typ, processNames_Param, processNames_Indices] at h
    split at h
    · simp at h
    · next ty hty =>
      split at h
      · simp at h
      · next acc hacc =>
        simp only [Except.ok.injEq] at h
        refine ⟨name, ty, acc, hd, hty, hacc, ?_⟩
        rw [← h]
        simp only [processNames_Param]

/-- C6 (amended): for every field whose raw description contains the sentence
Must not be empty., after processField the field has Required = true, whatever the
table said, and its Docs is the comment made of the description with the first
occurrence of the sentence removed; the finalized Docs is free of the sentence
whenever removing that first occurrence leaves none in the description. -/
theorem processField_mustNotBeEmpty (U : CaseTable) (f f1 : Field)
    (h : processField U f = .ok f1) (hc : Contains f.Docs mustNotBeEmpty = true) :
    f1.Required = true ∧
    f1.Docs = comment (trim (replaceFirst f.Docs mustNotBeEmpty [])) ∧
    (Contains (replaceFirst f.Docs mustNotBeEmpty []) mustNotBeEmpty = false →
      Contains f1.Docs mustNotBeEmpty = false) := by
  obtain ⟨name, ty, acc, _, _, _, e⟩ := processField_ok U f f1 h
  have hR : f1.Required = true := by
    rw [e]
    simp only [processNames_Required, hc, if_true]
  have hD : f1.Docs = comment (trim (replaceFirst f.Docs mustNotBeEmpty [])) := by
    rw [e]
    simp only [processNames_Docs, hc, if_true]
  refine ⟨hR, hD, fun hno => ?_⟩
  rw [Contains_eq_false_iff] at hno ⊢
  intro hin
  apply hno
  rw [hD] at hin
  have h1 := comment_within mustNotBeEmpty _ (by decide) (by decide) (by decide) (by decide) hin
  exact h1.trans (trim_within _)

/-- Witness of processField_mustNotBeEmpty: an optional entry documented as not
empty. -/
theorem processField_mustNotBeEmpty_witness :
    ((processField asciiCase (rawField exEventEntry)).toOption.getD {}).Required = true ∧
    ((processField asciiCase (rawField exEventEntry)).toOption.getD {}).Docs =
      comment (trim (replaceFirst (rawField exEventEntry).Docs mustNotBeEmpty [])) ∧
    (Contains (replaceFirst (rawField exEventEntry).Docs mustNotBeEmpty []) mustNotBeEmpty
        = false →
      Contains ((processField asciiCase (rawField exEventEntry)).toOption.getD {}).Docs
        mustNotBeEmpty = false) :=
  processField_mustNotBeEmpty asciiCase (rawField exEventEntry) _ rfl (by decide)

/-- C6 (as stated) fails: when the description holds the sentence twice, only the first
occurrence is removed and the finalized Docs still contains it. -/
theorem processField_mustNotBeEmpty_counterexample :
    Contains (rawField exTwoSentencesEntry).Docs mustNotBeEmpty = true ∧
    (processField asciiCase (rawField exTwoSentencesEntry)).map
      (fun f => (f.Required, f.Docs, Contains f.Docs mustNotBeEmpty)) =
      .ok (true, "// Must not be empty.".toList, true) :=
  ⟨by decide, rfl⟩

/-- C7 (amended): for every field whose derived identifier is ProtocolVersion or
ClientID, processField leaves Required = false whatever the required/optional marker
said, unless the description contains the sentence Must not be empty., in which case
it sets Required = true. -/
theorem processField_defaulted (U : CaseTable) (f f1 : Field) (name : Str)
    (h : processField U f = .ok f1) (hd : derivedName U f = .ok name)
    (hn : name = "ProtocolVersion".toList ∨ name = "ClientID".toList) :
    f1.Name = name ∧ f1.Required = Contains f.Docs mustNotBeEmpty := by
  obtain ⟨name1, ty, acc, hd1, _, _, e⟩ := processField_ok U f f1 h
  rw [hd] at hd1
  injection hd1 with hd1
  subst hd1
  constructor
  · rw [e]
    simp only [processNames_Name]
    rcases hn with hn | hn <;> rw [hn] <;> rfl
  · rw [e]
    simp only [processNames_Required, hn, if_true]
    cases Contains f.Docs mustNotBeEmpty <;> rfl

/-- Witness of processField_defaulted: the protocol version parameter, marked
required. -/
theorem processField_defaulted_witness :
    ((processField asciiCase (rawField exVersionEntry)).toOption.getD {}).Name =
      "ProtocolVersion".toList ∧
    ((processField asciiCase (rawField exVersionEntry)).toOption.getD {}).Required =
      Contains (rawField exVersionEntry).Docs mustNotBeEmpty :=
  processField_defaulted asciiCase (rawField exVersionEntry) _ "ProtocolVersion".toList
    rfl rfl (Or.inl rfl)

/-- C7 (as stated) fails: the client ID parameter, whose description contains
Must not be empty., ends with Required = true. -/
theorem processField_defaulted_counterexample :
    derivedName asciiCase (rawField exClientIDEntry) = .ok "ClientID".toList ∧
    (processField asciiCase (rawField exClientIDEntry)).map
      (fun f => (f.Name, f.Required)) = .ok ("ClientID".toList, true) :=
  ⟨rfl, rfl⟩

/-! ## Lemmas: the regular expressions -/

theorem takeWhile_append_stop (p : Char → Bool) (a : Str) (x : Char) (y : Str)
    (hx : p x = false) : (a ++ x :: y).takeWhile p = a.takeWhile p := by
  induction a with
  | nil => simp [List.takeWhile, hx]
  | cons c a ih =>
    simp only [List.cons_append, List.takeWhile_cons, ih]

theorem takeWhile_all (p : Char → Bool) (g : Str) (hg : ∀ c ∈ g, p c = true) :
    g.takeWhile p = g := by
  induction g with
  | nil => rfl
  | cons c g ih =>
    rw [List.takeWhile_cons, hg c (List.mem_cons_self _ _),
      ih (fun d hd => hg d (List.mem_cons_of_mem _ hd))]
    rfl

theorem matchDelim_shape (lq rq : Char) (cls : Char → Bool) (g t : Str) (hne : g ≠ [])
    (hg : ∀ c ∈ g, cls c = true) (hrq : cls rq = false) :
    matchDelim lq cls rq (lq :: (g ++ rq :: t)) = some g := by
  have e1 : (g ++ rq :: t).takeWhile cls = g := by
    rw [takeWhile_append_stop cls g rq t hrq, takeWhile_all cls g hg]
  have e2 : (g ++ rq :: t).drop g.length = rq :: t := List.drop_left' rfl
  simp only [matchDelim, e1, e2, List.head?_cons, true_and, ne_eq, hne, not_false_eq_true,
    and_self, if_true]

theorem matchDelim_some (lq rq : Char) (cls : Char → Bool) (s g : Str)
    (h : matchDelim lq cls rq s = some g) :
    g ≠ [] ∧ (∀ c ∈ g, cls c = true) ∧ s = lq :: (g ++ rq :: s.drop (g.length + 2)) := by
  cases s with
  | nil => simp [matchDelim] at h
  | cons c rest =>
    simp only [matchDelim] at h
    split_ifs at h with hc
    obtain ⟨h1, h2, h3⟩ := hc
    injection h with h
    subst h1
    have hsplit := List.takeWhile_append_dropWhile cls rest
    have hdrop : rest.drop (rest.takeWhile cls).length = rest.dropWhile cls := by
      have e0 : (rest.takeWhile cls ++ rest.dropWhile cls).drop (rest.takeWhile cls).length =
          rest.dropWhile cls := List.drop_left' rfl
      rwa [hsplit] at e0
    rw [hdrop] at h3
    refine ⟨h ▸ h2, ?_, ?_⟩
    · intro d hd
      rw [← h] at hd
      exact List.mem_takeWhile_imp hd
    · cases hdw : rest.dropWhile cls with
      | nil => simp [hdw] at h3
      | cons d ds =>
        rw [hdw] at h3 hsplit
        simp only [List.head?_cons, Option.some.injEq] at h3
        subst h3
        rw [h] at hsplit
        have e : (c :: rest).drop (g.length + 2) = ds := by
          rw [← hsplit]
          simp
        rw [e, hsplit]

theorem matchDelim_append_stop (lq rq : Char) (cls : Char → Bool) (a : Str) (x : Char)
    (y : Str) (ha : a ≠ []) (hx : cls x = false) (hxr : x ≠ rq) :
    matchDelim lq cls rq (a ++ x :: y) = matchDelim lq cls rq a := by
  cases a with
  | nil => exact absurd rfl ha
  | cons c rest =>
    have e1 := takeWhile_append_stop cls rest x y hx
    have hle : (rest.takeWhile cls).length ≤ rest.length :=
      (List.takeWhile_prefix cls).length_le
    have e2 : (rest ++ x :: y).drop (rest.takeWhile cls).length =
        rest.drop (rest.takeWhile cls).length ++ x :: y :=
      List.drop_append_of_le_length hle
    have e3 : ((rest.drop (rest.takeWhile cls).length ++ x :: y).head? = some rq) ↔
        ((rest.drop (rest.takeWhile cls).length).head? = some rq) := by
      cases rest.drop (rest.takeWhile cls).length with
      | nil => simp [hxr]
      | cons d ds => simp
    simp only [matchDelim, List.cons_append, e1, e2, e3]

theorem scanPieces_skip (k : Nat) (s : Str) : scanPieces k s = scanPieces 0 (s.drop k) := by
  induction s generalizing k with
  | nil => cases k <;> simp [scanPieces]
  | cons c rest ih =>
    cases k with
    | zero => rfl
    | succ k => simp only [scanPieces, List.drop_succ_cons, ih k]

theorem findAllAux_skip (lq rq : Char) (cls : Char → Bool) (k : Nat) (s : Str) :
    findAllAux lq cls rq k s = findAllAux lq cls rq 0 (s.drop k) := by
  induction s generalizing k with
  | nil => cases k <;> simp [findAllAux]
  | cons c rest ih =>
    cases k with
    | zero => rfl
    | succ k => simp only [findAllAux, List.drop_succ_cons, ih k]

theorem scanPieces_match (g t : Str) (hne : g ≠ []) (hg : ∀ c ∈ g, isAlpha c = true) :
    scanPieces 0 ('<' :: (g ++ '>' :: t)) = Piece.var g :: scanPieces 0 t := by
  have hm := matchDelim_shape '<' '>' isAlpha g t hne hg (by decide)
  simp only [scanPieces, hm]
  rw [scanPieces_skip]
  have e : (g ++ '>' :: t).drop (g.length + 1) = t := by simp
  rw [e]

theorem scanPieces_nomatch (c : Char) (r : Str)
    (h : matchDelim '<' isAlpha '>' (c :: r) = none) :
    scanPieces 0 (c :: r) = Piece.lit c :: scanPieces 0 r := by
  simp only [scanPieces, h]

theorem findAll_match (g t : Str) (hne : g ≠ []) (hg : ∀ c ∈ g, isAlpha c = true) :
    indexMatcherFindAll ('<' :: (g ++ '>' :: t)) =
      ('<' :: (g ++ ['>'])) :: indexMatcherFindAll t := by
  have hm := matchDelim_shape '<' '>' isAlpha g t hne hg (by decide)
  simp only [indexMatcherFindAll, findAllAux, hm]
  rw [findAllAux_skip]
  have e : (g ++ '>' :: t).drop (g.length + 1) = t := by simp
  rw [e]
  rfl

theorem findAll_nomatch (c : Char) (r : Str)
    (h : matchDelim '<' isAlpha '>' (c :: r) = none) :
    indexMatcherFindAll (c :: r) = indexMatcherFindAll r := by
  simp only [indexMatcherFindAll, findAllAux, h]

theorem indexVar_match (g : Str) (hne : g ≠ []) (hg : ∀ c ∈ g, isAlpha c = true) :
    indexVar ('<' :: (g ++ ['>'])) = .ok g := by
  have hm := matchDelim_shape '<' '>' isAlpha g [] hne hg (by decide)
  simp only [indexVar, grepper, firstMatch, hm]

theorem replaceFirst_at (x m y new : Str) (hm : m ≠ [])
    (hno : ∀ b, b ≠ [] → b <:+ x → ¬ m <+: b ++ (m ++ y)) :
    replaceFirst (x ++ (m ++ y)) m new = x ++ (new ++ y) := by
  induction x with
  | nil =>
    cases hmy : m ++ y with
    | nil =>
      have := List.append_eq_nil.mp hmy
      exact absurd this.1 hm
    | cons c rest =>
      have hp : m.isPrefixOf (c :: rest) = true := by
        rw [List.isPrefixOf_iff_prefix, ← hmy]
        exact List.prefix_append _ _
      have hd : (c :: rest).drop m.length = y := by
        rw [← hmy]
        exact List.drop_left' rfl
      simp only [List.nil_append, replaceFirst, hp, if_true, hd]
  | cons c x ih =>
    have h0 : ¬ m.isPrefixOf (c :: (x ++ (m ++ y))) = true := by
      rw [List.isPrefixOf_iff_prefix]
      exact hno (c :: x) (by simp) (List.suffix_refl _)
    have e : (c :: x) ++ (m ++ y) = c :: (x ++ (m ++ y)) := rfl
    rw [e, replaceFirst, if_neg h0,
      ih (fun b hb hs => hno b hb (hs.trans (List.suffix_cons _ _)))]
    rfl

theorem suffix_append_cases (b x y : Str) (h : b <:+ x ++ y) :
    b <:+ y ∨ ∃ b1, b1 ≠ [] ∧ b1 <:+ x ∧ b = b1 ++ y := by
  obtain ⟨p, hp⟩ := h
  rcases List.append_eq_append_iff.mp hp with ⟨a, h1, h2⟩ | ⟨c, h1, h2⟩
  · by_cases ha : a = []
    · left
      rw [h2, ha]
      exact List.suffix_refl _
    · exact Or.inr ⟨a, ha, ⟨p, h1.symm⟩, h2⟩
  · exact Or.inl ⟨c, h2.symm⟩

theorem matchDelim_head (lq rq : Char) (cls : Char → Bool) (c : Char) (s : Str)
    (hc : c ≠ lq) : matchDelim lq cls rq (c :: s) = none := by
  simp [matchDelim, hc]

theorem spliceVar_no_lt (g : Str) (hg : ∀ c ∈ g, isAlpha c = true) :
    ∀ c ∈ spliceVar g, c ≠ '<' := by
  intro c hc
  simp only [spliceVar, List.mem_append] at hc
  rcases hc with (hc | hc) | hc
  · revert c
    decide
  · intro e
    have := hg c hc
    rw [e] at this
    exact absurd this (by decide)
  · revert c
    decide

theorem matchDelim_of_placeholder (g s : Str) (hne : g ≠ []) (hg : ∀ c ∈ g, isAlpha c = true)
    (h : ('<' :: (g ++ ['>'])) <+: s) : matchDelim '<' isAlpha '>' s = some g := by
  obtain ⟨z, hz⟩ := h
  rw [← hz]
  have e : '<' :: (g ++ ['>']) ++ z = '<' :: (g ++ '>' :: z) := by simp
  rw [e]
  exact matchDelim_shape '<' '>' isAlpha g z hne hg (by decide)

/-- The loop of processField over the placeholders equals the single scan: started on
a text x followed by the rest r of the key and the closing quote, where no placeholder
starts inside x, it ends with x followed by the scanned rest. -/
theorem paramLoop_scan (n : Nat) : ∀ (r x : Str) (idx : List Str), r.length ≤ n →
    (∀ b, b ≠ [] → b <:+ x → matchDelim '<' isAlpha '>' (b ++ r) = none) →
    paramLoop (indexMatcherFindAll r) (idx, x ++ (r ++ "\"".toList)) =
      .ok (idx ++ indexNames r, x ++ (fillPieces spliceVar (scanPieces 0 r) ++ "\"".toList)) := by
  induction n with
  | zero =>
    intro r x idx hr _
    have : r = [] := List.length_eq_zero.mp (Nat.le_zero.mp hr)
    subst this
    simp [indexMatcherFindAll, findAllAux, paramLoop, indexNames, scanPieces, fillPieces]
  | succ n ih =>
    intro r x idx hr hinv
    cases r with
    | nil =>
      simp [indexMatcherFindAll, findAllAux, paramLoop, indexNames, scanPieces, fillPieces]
    | cons c r =>
      cases hm : matchDelim '<' isAlpha '>' (c :: r) with
      | none =>
        rw [findAll_nomatch c r hm]
        have hlen : r.length ≤ n := by
          simp only [List.length_cons] at hr
          omega
        have hinv1 : ∀ b, b ≠ [] → b <:+ x ++ [c] →
            matchDelim '<' isAlpha '>' (b ++ r) = none := by
          intro b hb hs
          rcases suffix_append_cases b x [c] hs with h1 | ⟨b1, hb1, hs1, e⟩
          · rcases List.suffix_cons_iff.mp h1 with e | h2
            · rw [e]
              exact hm
            · exact absurd (List.suffix_nil.mp h2) hb
          · rw [e, List.append_assoc]
            exact hinv b1 hb1 hs1
        have h := ih r (x ++ [c]) idx hlen hinv1
        have e1 : x ++ [c] ++ (r ++ "\"".toList) = x ++ (c :: r ++ "\"".toList) := by simp
        rw [e1] at h
        rw [h]
        simp [indexNames, scanPieces_nomatch c r hm, fillPieces]
      | some g =>
        obtain ⟨hne, hg, hshape⟩ := matchDelim_some '<' '>' isAlpha _ g hm
        generalize ht : (c :: r).drop (g.length + 2) = t at hshape
        have hlen : t.length ≤ n := by
          have := congrArg List.length hshape
          simp only [List.length_cons, List.length_append] at this hr
          omega
        rw [hshape] at hinv ⊢
        rw [findAll_match g t hne hg]
        simp only [paramLoop, indexVar_match g hne hg]
        have e1 : x ++ ('<' :: (g ++ '>' :: t) ++ "\"".toList) =
            x ++ (('<' :: (g ++ ['>'])) ++ (t ++ "\"".toList)) := by simp
        have hrep : replaceFirst (x ++ ('<' :: (g ++ '>' :: t) ++ "\"".toList))
            ('<' :: (g ++ ['>'])) (spliceVar g) =
            x ++ (spliceVar g ++ (t ++ "\"".toList)) := by
          rw [e1]
          apply replaceFirst_at _ _ _ _ (by simp)
          intro b hb hs hpre
          have h1 := matchDelim_of_placeholder g _ hne hg hpre
          have e2 : b ++ ('<' :: (g ++ ['>']) ++ (t ++ "\"".toList)) =
              (b ++ '<' :: (g ++ '>' :: t)) ++ '"' :: [] := by simp
          rw [e2, matchDelim_append_stop '<' '>' isAlpha _ '"' [] (by simp) (by decide)
            (by decide), hinv b hb hs] at h1
          cases h1
        rw [hrep]
        have hinv1 : ∀ b, b ≠ [] → b <:+ x ++ spliceVar g →
            matchDelim '<' isAlpha '>' (b ++ t) = none := by
          intro b hb hs
          rcases suffix_append_cases b x (spliceVar g) hs with h1 | ⟨b1, hb1, hs1, e⟩
          · cases b with
            | nil => exact absurd rfl hb
            | cons d b =>
              have hd : d ∈ spliceVar g := h1.subset (List.mem_cons_self _ _)
              exact matchDelim_head _ _ _ _ _ (spliceVar_no_lt g hg d hd)
          · have e3 : b ++ t = b1 ++ '"' :: (" + h.".toList ++ g ++ " + \"".toList ++ t) := by
              rw [e]
              simp [spliceVar]
            rw [e3, matchDelim_append_stop '<' '>' isAlpha b1 '"' _ hb1 (by decide) (by decide)]
            have h2 := hinv b1 hb1 hs1
            rwa [matchDelim_append_stop '<' '>' isAlpha b1 '<' _ hb1 (by decide) (by decide)]
              at h2
        have h := ih t (x ++ spliceVar g) (idx ++ [g]) hlen hinv1
        have e4 : x ++ spliceVar g ++ (t ++ "\"".toList) =
            x ++ (spliceVar g ++ (t ++ "\"".toList)) := by simp
        rw [e4] at h
        rw [h]
        simp [indexNames, scanPieces_match g t hne hg, fillPieces]

theorem scanPieces_mem (k : Nat) (s : Str) (p : Piece) (hp : p ∈ scanPieces k s) :
    (∀ c, p = Piece.lit c → c ∈ s) ∧
    (∀ g, p = Piece.var g → g ≠ [] ∧ ∀ c ∈ g, isAlpha c = true) := by
  induction s generalizing k with
  | nil => simp [scanPieces] at hp
  | cons d rest ih =>
    cases k with
    | succ k =>
      simp only [scanPieces] at hp
      obtain ⟨h1, h2⟩ := ih k hp
      exact ⟨fun c e => List.mem_cons_of_mem _ (h1 c e), h2⟩
    | zero =>
      simp only [scanPieces] at hp
      cases hm : matchDelim '<' isAlpha '>' (d :: rest) with
      | none =>
        rw [hm] at hp
        rcases List.mem_cons.mp hp with e | hp1
        · subst e
          refine ⟨fun c e => ?_, fun g e => ?_⟩
          · injection e with e
            rw [e]
            exact List.mem_cons_self _ _
          · cases e
        · obtain ⟨h1, h2⟩ := ih 0 hp1
          exact ⟨fun c e => List.mem_cons_of_mem _ (h1 c e), h2⟩
      | some g0 =>
        rw [hm] at hp
        obtain ⟨hne, hg, _⟩ := matchDelim_some '<' '>' isAlpha _ g0 hm
        rcases List.mem_cons.mp hp with e | hp1
        · subst e
          refine ⟨fun c e => ?_, fun g e => ?_⟩
          · cases e
          · injection e with e
            rw [← e]
            exact ⟨hne, hg⟩
        · obtain ⟨h1, h2⟩ := ih _ hp1
          exact ⟨fun c e => List.mem_cons_of_mem _ (h1 c e), h2⟩

theorem evalGo_ident (env : Str → Str) (g : Str) (hg : ∀ c ∈ g, isAlpha c = true) :
    ∀ (v t : Str), v ++ g ≠ [] →
      evalGo env (.ident v) (g ++ ' ' :: t) =
        (evalGo env .plus t).map (fun w => env (v ++ g) ++ w) := by
  induction g with
  | nil =>
    intro v t hv
    have hv1 : v ≠ [] := by simpa using hv
    rw [List.nil_append, evalGo, if_neg (by decide), if_pos ⟨rfl, hv1⟩, List.append_nil]
  | cons c g ih =>
    intro v t _
    have hc := hg c (List.mem_cons_self _ _)
    have e : (c :: g) ++ ' ' :: t = c :: (g ++ ' ' :: t) := rfl
    rw [e, evalGo, if_pos hc,
      ih (fun d hd => hg d (List.mem_cons_of_mem _ hd)) (v ++ [c]) t (by simp)]
    simp

theorem evalGo_pieces (env : Str → Str) (ps : List Piece)
    (hlit : ∀ c, Piece.lit c ∈ ps → c ≠ '"' ∧ c ≠ '\\')
    (hvar : ∀ g, Piece.var g ∈ ps → g ≠ [] ∧ ∀ c ∈ g, isAlpha c = true) :
    evalGo env .inLit (fillPieces spliceVar ps ++ "\"".toList) = some (fillPieces env ps) := by
  induction ps with
  | nil =>
    simp only [fillPieces, List.map_nil, List.flatten_nil, List.nil_append]
    rfl
  | cons p ps ih =>
    have ih1 := ih (fun c hc => hlit c (List.mem_cons_of_mem _ hc))
      (fun g hg => hvar g (List.mem_cons_of_mem _ hg))
    cases p with
    | lit c =>
      obtain ⟨h1, h2⟩ := hlit c (List.mem_cons_self _ _)
      have e : fillPieces spliceVar (Piece.lit c :: ps) ++ "\"".toList =
          c :: (fillPieces spliceVar ps ++ "\"".toList) := by
        simp [fillPieces]
      rw [e, evalGo, if_neg h1, if_neg h2, ih1]
      simp [fillPieces]
    | var g =>
      obtain ⟨hne, hg⟩ := hvar g (List.mem_cons_self _ _)
      have e : fillPieces spliceVar (Piece.var g :: ps) ++ "\"".toList =
          '"' :: ' ' :: '+' :: ' ' :: 'h' :: '.' ::
            (g ++ ' ' :: ('+' :: ' ' :: '"' :: (fillPieces spliceVar ps ++ "\"".toList))) := by
        simp [fillPieces, spliceVar]
      rw [e]
      have e1 : evalGo env .inLit ('"' :: ' ' :: '+' :: ' ' :: 'h' :: '.' ::
            (g ++ ' ' :: ('+' :: ' ' :: '"' :: (fillPieces spliceVar ps ++ "\"".toList)))) =
          evalGo env (.ident [])
            (g ++ ' ' :: ('+' :: ' ' :: '"' :: (fillPieces spliceVar ps ++ "\"".toList))) := by
        simp [evalGo]
      have e2 : evalGo env .plus
            ('+' :: ' ' :: '"' :: (fillPieces spliceVar ps ++ "\"".toList)) =
          evalGo env .inLit (fillPieces spliceVar ps ++ "\"".toList) := by
        simp [evalGo]
      rw [e1, evalGo_ident env g hg [] _ (by simpa using hne), e2, ih1]
      simp [fillPieces]

/-- C8: the loop of processField over the placeholders never aborts and, by repeated
first-match replacement, builds exactly the result of the single left-to-right scan:
the double-quoted key in which every placeholder, repeated ones included, is replaced
by the splice of its variable. So ParamStr of a processed field is that expression, and
for a key free of double quotes and backslashes its value, with each index variable
bound by env, is the key with every placeholder replaced by the value of its
variable. -/
theorem processField_paramStr (U : CaseTable) (f f1 : Field)
    (h : processField U f = .ok f1) :
    (∀ (key : Str) (idx : List Str),
      paramLoop (indexMatcherFindAll key) (idx, "\"".toList ++ key ++ "\"".toList) =
        .ok (idx ++ indexNames key, singleScan key)) ∧
    f1.ParamStr = singleScan f.Param ∧
    f1.Indices = f.Indices ++ indexNames f.Param ∧
    (∀ env : Str → Str, '"' ∉ f.Param → '\\' ∉ f.Param →
      evalGo env .operand f1.ParamStr = some (substitute env f.Param)) := by
  have hloop : ∀ (key : Str) (idx : List Str),
      paramLoop (indexMatcherFindAll key) (idx, "\"".toList ++ key ++ "\"".toList) =
        .ok (idx ++ indexNames key, singleScan key) := by
    intro key idx
    have h1 := paramLoop_scan key.length key "\"".toList idx (le_refl _) (by
      intro b hb hs
      cases b with
      | nil => exact absurd rfl hb
      | cons d b =>
        have hd : d ∈ "\"".toList := hs.subset (List.mem_cons_self _ _)
        have hd1 : d = '"' := by simpa using hd
        exact matchDelim_head _ _ _ _ _ (by rw [hd1]; decide))
    have e : "\"".toList ++ key ++ "\"".toList = "\"".toList ++ (key ++ "\"".toList) := by
      simp
    rw [e, h1]
    simp [singleScan]
  obtain ⟨name, ty, acc, _, _, hacc, e⟩ := processField_ok U f f1 h
  rw [hloop] at hacc
  injection hacc with hacc
  have hP : f1.ParamStr = singleScan f.Param := by
    rw [e, ← hacc]
  have hI : f1.Indices = f.Indices ++ indexNames f.Param := by
    rw [e, ← hacc]
  refine ⟨hloop, hP, hI, fun env hq hb => ?_⟩
  rw [hP]
  have e1 : singleScan f.Param =
      '"' :: (fillPieces spliceVar (scanPieces 0 f.Param) ++ "\"".toList) := by
    simp [singleScan]
  rw [e1, evalGo, if_pos rfl]
  exact evalGo_pieces env _
    (fun c hc => by
      have hm := (scanPieces_mem 0 f.Param _ hc).1 c rfl
      exact ⟨fun e2 => hq (e2 ▸ hm), fun e2 => hb (e2 ▸ hm)⟩)
    (fun g hg => (scanPieces_mem 0 f.Param _ hg).2 g rfl)

/-- Witness of processField_paramStr: the key pr<foo>id gives the expression
"pr" + h.foo + "id", whose value with foo bound to X is prXid; and in the key
a<foo>b<foo>c both occurrences of the placeholder are replaced. -/
theorem processField_paramStr_witness :
    ((processField asciiCase (rawField exFooEntry)).toOption.getD {}).ParamStr =
      "\"pr\" + h.foo + \"id\"".toList ∧
    evalGo (fun _ => "X".toList) .operand
      ((processField asciiCase (rawField exFooEntry)).toOption.getD {}).ParamStr =
      some "prXid".toList ∧
    paramLoop (indexMatcherFindAll "a<foo>b<foo>c".toList)
        ([], "\"".toList ++ "a<foo>b<foo>c".toList ++ "\"".toList) =
      .ok (["foo".toList, "foo".toList], "\"a\" + h.foo + \"b\" + h.foo + \"c\"".toList) :=
  ⟨(processField_paramStr asciiCase (rawField exFooEntry) _ rfl).2.1,
   (processField_paramStr asciiCase (rawField exFooEntry) _ rfl).2.2.2 (fun _ => "X".toList)
     (by decide) (by decide),
   (processField_paramStr asciiCase (rawField exFooEntry) _ rfl).1 "a<foo>b<foo>c".toList []⟩

/-! ## Lemmas: sorting -/

theorem strLe_total (a b : Str) : strLe a b = true ∨ strLe b a = true := by
  induction a generalizing b with
  | nil => exact Or.inl rfl
  | cons x a ih =>
    cases b with
    | nil => exact Or.inr rfl
    | cons y b =>
      simp only [strLe]
      by_cases h1 : x.toNat < y.toNat
      · exact Or.inl (by rw [if_pos h1])
      · by_cases h2 : y.toNat < x.toNat
        · exact Or.inr (by rw [if_pos h2])
        · rw [if_neg h1, if_neg h2, if_neg h2, if_neg h1]
          exact ih b

theorem strLe_trans (a b c : Str) (h1 : strLe a b = true) (h2 : strLe b c = true) :
    strLe a c = true := by
  induction a generalizing b c with
  | nil => rfl
  | cons x a ih =>
    cases b with
    | nil => simp [strLe] at h1
    | cons y b =>
      cases c with
      | nil => simp [strLe] at h2
      | cons z c =>
        simp only [strLe] at h1 h2 ⊢
        by_cases hxy : x.toNat < y.toNat
        · by_cases hyz : y.toNat < z.toNat
          · rw [if_pos (by omega)]
          · by_cases hzy : z.toNat < y.toNat
            · rw [if_neg hyz, if_pos hzy] at h2
              cases h2
            · rw [if_pos (by omega)]
        · by_cases hyx : y.toNat < x.toNat
          · rw [if_neg hxy, if_pos hyx] at h1
            cases h1
          · rw [if_neg hxy, if_neg hyx] at h1
            by_cases hyz : y.toNat < z.toNat
            · rw [if_pos (by omega)]
            · by_cases hzy : z.toNat < y.toNat
              · rw [if_neg hyz, if_pos hzy] at h2
                cases h2
              · rw [if_neg hyz, if_neg hzy] at h2
                rw [if_neg (by omega), if_neg (by omega)]
                exact ih b c h1 h2

theorem strLe_antisymm (a b : Str) (h1 : strLe a b = true) (h2 : strLe b a = true) :
    a = b := by
  induction a generalizing b with
  | nil =>
    cases b with
    | nil => rfl
    | cons y b => simp [strLe] at h2
  | cons x a ih =>
    cases b with
    | nil => simp [strLe] at h1
    | cons y b =>
      simp only [strLe] at h1 h2
      by_cases hxy : x.toNat < y.toNat
      · rw [if_neg (by omega), if_pos hxy] at h2
        cases h2
      · by_cases hyx : y.toNat < x.toNat
        · rw [if_neg hxy, if_pos hyx] at h1
          cases h1
        · rw [if_neg hxy, if_neg hyx] at h1
          rw [if_neg hyx, if_neg hxy] at h2
          have e : x = y := by
            have e1 : x.toNat = y.toNat := by omega
            rw [← Char.ofNat_toNat x, ← Char.ofNat_toNat y, e1]
          rw [e, ih b h1 h2]

theorem sortStrings_sorted (l : List Str) : (sortStrings l).Sorted StrLE :=
  @List.sorted_insertionSort Str StrLE _ ⟨strLe_total⟩ ⟨strLe_trans⟩ l

theorem sortStrings_perm (l : List Str) : (sortStrings l).Perm l :=
  List.perm_insertionSort StrLE l

/-- The sorted list depends on the elements only, not on the order they come in. -/
theorem sortStrings_congr (l1 l2 : List Str) (h : l1.Perm l2) :
    sortStrings l1 = sortStrings l2 :=
  @List.eq_of_perm_of_sorted Str StrLE ⟨strLe_antisymm⟩ _ _
    (((sortStrings_perm l1).trans h).trans (sortStrings_perm l2).symm)
    (sortStrings_sorted l1) (sortStrings_sorted l2)

/-! ## Lemmas: processHitType -/

theorem foldl_setInsert_mem (l s : List Str) (x : Str) :
    x ∈ l.foldl setInsert s ↔ x ∈ s ∨ x ∈ l := by
  induction l generalizing s with
  | nil => simp
  | cons k l ih =>
    rw [List.foldl_cons, ih]
    unfold setInsert
    by_cases hk : k ∈ s
    · rw [if_pos hk]
      constructor
      · rintro (h | h)
        · exact Or.inl h
        · exact Or.inr (List.mem_cons_of_mem _ h)
      · rintro (h | h)
        · exact Or.inl h
        · rcases List.mem_cons.mp h with e | e
          · exact Or.inl (e ▸ hk)
          · exact Or.inr e
    · rw [if_neg hk]
      simp only [List.mem_append, List.mem_singleton, List.mem_cons]
      tauto

theorem foldl_setInsert_nodup (l s : List Str) (hs : s.Nodup) :
    (l.foldl setInsert s).Nodup := by
  induction l generalizing s with
  | nil => exact hs
  | cons k l ih =>
    rw [List.foldl_cons]
    apply ih
    unfold setInsert
    by_cases hk : k ∈ s
    · rw [if_pos hk]
      exact hs
    · rw [if_neg hk]
      refine List.Nodup.append hs (List.nodup_singleton k) ?_
      intro a ha hak
      rw [List.mem_singleton] at hak
      exact hk (hak ▸ ha)

theorem indexFold_mem (allFields : List Field) (rs : List FieldRef) (s : List Str) (x : Str) :
    x ∈ rs.foldl (fun s r => (deref allFields r).Indices.foldl setInsert s) s ↔
      x ∈ s ∨ ∃ r ∈ rs, x ∈ (deref allFields r).Indices := by
  induction rs generalizing s with
  | nil => simp
  | cons r rs ih =>
    rw [List.foldl_cons, ih, foldl_setInsert_mem]
    simp only [List.mem_cons, exists_eq_or_imp]
    tauto

theorem indexFold_nodup (allFields : List Field) (rs : List FieldRef) (s : List Str)
    (hs : s.Nodup) :
    (rs.foldl (fun s r => (deref allFields r).Indices.foldl setInsert s) s).Nodup := by
  induction rs generalizing s with
  | nil => exact hs
  | cons r rs ih =>
    rw [List.foldl_cons]
    exact ih _ (foldl_setInsert_nodup _ _ hs)

theorem indexSet_mem (allFields : List Field) (h : HitType) (x : Str) :
    x ∈ indexSet allFields h ↔ ∃ r ∈ h.Fields, x ∈ (deref allFields r).Indices := by
  unfold indexSet
  rw [indexFold_mem]
  simp

theorem indexSet_nodup (allFields : List Field) (h : HitType) :
    (indexSet allFields h).Nodup :=
  indexFold_nodup _ _ _ List.nodup_nil

theorem hitType_Indices_eq (U : CaseTable) (ord : List Str → List Str)
    (allFields : List Field) (reg : Registry) (h : HitType) :
    (processHitType U ord allFields reg h).Indices =
      sortStrings (h.Indices ++ ord (indexSet allFields h)) := by
  unfold processHitType
  simp only
  split_ifs <;> rfl

/-- C9: after processHitType, on a hit type whose Indices is still empty (as buildTypes
creates every hit type), h.Indices is sorted, has no duplicates, and contains exactly
the index-variable names that occur in the Indices of some field of h; two visiting
orders of the intermediate set give the same list. -/
theorem processHitType_indices (U : CaseTable) (ord ord1 : List Str → List Str)
    (allFields : List Field) (reg : Registry) (h : HitType)
    (hord : ∀ l, (ord l).Perm l) (hord1 : ∀ l, (ord1 l).Perm l) (h0 : h.Indices = []) :
    (processHitType U ord allFields reg h).Indices.Sorted StrLE ∧
    (processHitType U ord allFields reg h).Indices.Nodup ∧
    (∀ i, i ∈ (processHitType U ord allFields reg h).Indices ↔
      ∃ r ∈ h.Fields, i ∈ (deref allFields r).Indices) ∧
    (processHitType U ord1 allFields reg h).Indices =
      (processHitType U ord allFields reg h).Indices := by
  have hperm : ∀ o : List Str → List Str, (∀ l, (o l).Perm l) →
      ((processHitType U o allFields reg h).Indices).Perm (indexSet allFields h) := by
    intro o ho
    rw [hitType_Indices_eq, h0, List.nil_append]
    exact (sortStrings_perm _).trans (ho _)
  refine ⟨?_, ?_, ?_, ?_⟩
  · rw [hitType_Indices_eq]
    exact sortStrings_sorted _
  · exact (hperm ord hord).nodup_iff.mpr (indexSet_nodup allFields h)
  · intro i
    rw [(hperm ord hord).mem_iff, indexSet_mem]
  · rw [hitType_Indices_eq, hitType_Indices_eq, h0, List.nil_append]
    exact sortStrings_congr _ _ ((hord1 _).trans (hord _).symm)

/-- Witness of processHitType_indices: the event type of a document whose three event
parameters use three index variables, one of them in every key, visited in insertion
order and in reverse order. -/
theorem processHitType_indices_witness :
    (processHitType asciiCase id exProcessed exBuilt.hitTypes exEventHit).Indices =
      ["dimensionIndex".toList, "listIndex".toList, "productIndex".toList] ∧
    (processHitType asciiCase List.reverse exProcessed exBuilt.hitTypes exEventHit).Indices =
      (processHitType asciiCase id exProcessed exBuilt.hitTypes exEventHit).Indices :=
  ⟨by decide,
   (processHitType_indices asciiCase id List.reverse exProcessed exBuilt.hitTypes exEventHit
     (fun l => List.Perm.refl l) (fun l => List.reverse_perm l) rfl).2.2.2⟩

theorem regGet_isSome_iff (reg : Registry) (k : Str) :
    (regGet reg k).isSome = true ↔ k ∈ regKeys reg := by
  induction reg with
  | nil =>
    constructor
    · intro h
      cases h
    · intro h
      cases h
  | cons p rest ih =>
    obtain ⟨k0, h0⟩ := p
    have e : regKeys ((k0, h0) :: rest) = k0 :: regKeys rest := rfl
    rw [e, List.mem_cons]
    unfold regGet
    by_cases hk : k0 = k
    · rw [if_pos hk]
      exact ⟨fun _ => Or.inl hk.symm, fun _ => rfl⟩
    · rw [if_neg hk, ih]
      exact ⟨fun h => Or.inr h, fun h => h.resolve_left (fun e1 => hk e1.symm)⟩

theorem names_of_keys (reg : Registry) (ks : List Str)
    (hks : ∀ k ∈ ks, k ∈ regKeys reg)
    (hnames : ∀ k h2, regGet reg k = some h2 → h2.Name = k) :
    (ks.filterMap (regGet reg)).map HitType.Name = ks := by
  induction ks with
  | nil => rfl
  | cons k ks ih =>
    have hk := (regGet_isSome_iff reg k).mpr (hks k (List.mem_cons_self _ _))
    obtain ⟨h2, hg⟩ := Option.isSome_iff_exists.mp hk
    rw [List.filterMap_cons, hg]
    simp only [List.map_cons, hnames k h2 hg,
      ih (fun k1 hk1 => hks k1 (List.mem_cons_of_mem _ hk1))]

theorem hitType_IDs_eq (U : CaseTable) (ord : List Str → List Str)
    (allFields : List Field) (reg : Registry) (h : HitType) :
    (processHitType U ord allFields reg h).HitTypeIDs =
      if h.Name = "client".toList then
        sortStrings (h.HitTypeIDs ++
          (((ord (regKeys reg)).filterMap (regGet reg)).map HitType.Name).filter
            (fun n => n != "client".toList))
      else h.HitTypeIDs := by
  unfold processHitType
  simp only
  split_ifs <;> rfl

/-- C10: after processHitType, in a registry keyed by the names of its hit types (as
buildTypes leaves it) and on a hit type whose HitTypeIDs is still empty, the
HitTypeIDs of the client type is the sorted, duplicate-free list of the names of every
registered hit type other than client, whatever the visiting order of the map, and
the HitTypeIDs of every other type is left empty. -/
theorem processHitType_hitTypeIDs (U : CaseTable) (ord : List Str → List Str)
    (allFields : List Field) (reg : Registry) (h : HitType)
    (hord : ∀ l, (ord l).Perm l) (hkeys : (regKeys reg).Nodup)
    (hnames : ∀ k h2, regGet reg k = some h2 → h2.Name = k) (h0 : h.HitTypeIDs = []) :
    (h.Name = "client".toList →
      (processHitType U ord allFields reg h).HitTypeIDs =
        sortStrings ((regKeys reg).filter (fun n => n != "client".toList)) ∧
      (processHitType U ord allFields reg h).HitTypeIDs.Sorted StrLE ∧
      (processHitType U ord allFields reg h).HitTypeIDs.Nodup ∧
      (∀ n, n ∈ (processHitType U ord allFields reg h).HitTypeIDs ↔
        (n ∈ regKeys reg ∧ n ≠ "client".toList)) ∧
      "client".toList ∉ (processHitType U ord allFields reg h).HitTypeIDs) ∧
    (h.Name ≠ "client".toList → (processHitType U ord allFields reg h).HitTypeIDs = []) := by
  constructor
  · intro hc
    have hnm := names_of_keys reg (ord (regKeys reg))
      (fun k hk => ((hord _).mem_iff).mp hk) hnames
    have e : (processHitType U ord allFields reg h).HitTypeIDs =
        sortStrings ((regKeys reg).filter (fun n => n != "client".toList)) := by
      rw [hitType_IDs_eq, if_pos hc, h0, List.nil_append, hnm]
      exact sortStrings_congr _ _ ((hord _).filter _)
    have hperm := sortStrings_perm ((regKeys reg).filter (fun n => n != "client".toList))
    have hmem : ∀ n, n ∈ (processHitType U ord allFields reg h).HitTypeIDs ↔
        (n ∈ regKeys reg ∧ n ≠ "client".toList) := by
      intro n
      rw [e, hperm.mem_iff, List.mem_filter]
      simp
    refine ⟨e, ?_, ?_, hmem, ?_⟩
    · rw [e]
      exact sortStrings_sorted _
    · rw [e]
      exact hperm.nodup_iff.mpr (hkeys.filter _)
    · intro hm
      exact ((hmem _).mp hm).2 rfl
  · intro hc
    rw [hitType_IDs_eq, if_neg hc, h0]

/-- Witness of processHitType_hitTypeIDs: the registry buildTypes leaves for a document
with two enumerated hit types, visited in reverse order. -/
theorem processHitType_hitTypeIDs_witness :
    (processHitType asciiCase List.reverse exProcessed exBuilt.hitTypes exClientHit).HitTypeIDs
      = ["event".toList, "pageview".toList] ∧
    (processHitType asciiCase List.reverse exProcessed exBuilt.hitTypes exEventHit).HitTypeIDs
      = [] :=
  ⟨((processHitType_hitTypeIDs asciiCase List.reverse exProcessed exBuilt.hitTypes exClientHit
      (fun l => List.reverse_perm l) (by decide)
      (fun k h2 hg => by
        rw [(buildTypes_wellFormed (parseLoop exDocument []).1 (parseLoop exDocument []).2
          exBuilt rfl).2 k h2 hg])
      rfl).1 rfl).1,
   (processHitType_hitTypeIDs asciiCase List.reverse exProcessed exBuilt.hitTypes exEventHit
      (fun l => List.reverse_perm l) (by decide)
      (fun k h2 hg => by
        rw [(buildTypes_wellFormed (parseLoop exDocument []).1 (parseLoop exDocument []).2
          exBuilt rfl).2 k h2 hg])
      rfl).2 (by decide)⟩

/-! ## Claims on processHitType and the identifiers -/

/-- C11: processHitType only appends to the field list: the resulting Fields is the
original Fields, in the same order, followed by one pseudo-field per entry of the
resulting (sorted) Indices, in that order; the pseudo-field of an index name has Type
string, an empty Param, the index name with its first rune upper-cased as Name and the
index name as PrivateName. -/
theorem processHitType_fields (U : CaseTable) (ord : List Str → List Str)
    (allFields : List Field) (reg : Registry) (h : HitType) :
    (processHitType U ord allFields reg h).Fields =
      h.Fields ++ (processHitType U ord allFields reg h).Indices.map
        (fun i => FieldRef.pseudo (pseudoField U i)) ∧
    (processHitType U ord allFields reg h).Indices.Sorted StrLE ∧
    (∀ i : Str, (pseudoField U i).Typ = "string".toList ∧ (pseudoField U i).Param = [] ∧
      (pseudoField U i).Name = FirstRuneToUpper U i ∧ (pseudoField U i).PrivateName = i) := by
  refine ⟨?_, ?_, fun i => ⟨rfl, rfl, rfl, rfl⟩⟩
  · unfold processHitType
    simp only
    split_ifs <;> rfl
  · rw [hitType_Indices_eq]
    exact sortStrings_sorted _

/-! ## Claims on the template -/

theorem flatten_filterMap_cons {α β : Type} (g : α → Option β) (pr : β → Str) (a : α)
    (l : List α) :
    (((a :: l).filterMap g).map pr).flatten =
      (match g a with
        | none => []
        | some b => pr b) ++ ((l.filterMap g).map pr).flatten := by
  rw [List.filterMap_cons]
  cases g a <;> simp

theorem params_eq (fs : List Field) :
    buildCode.params fs = ((fs.filterMap addStmtOf).map printAdd).flatten := by
  induction fs with
  | nil => rfl
  | cons f fs ih =>
    rw [flatten_filterMap_cons, ← ih]
    unfold buildCode.params
    rw [List.map_cons, List.flatten_cons]
    congr 1
    unfold addStmtOf
    by_cases hp : f.Param = []
    · simp [hp]
    · by_cases hr : f.Required = true
      · simp [hp, hr, printAdd]
      · simp [hp, hr, printAdd, setFlag]

theorem setterFuncs_eq (structName : Str) (fs : List Field) :
    buildCode.setterFuncs structName fs =
      ((fs.filterMap (setterOf structName)).map printSetter).flatten := by
  induction fs with
  | nil => rfl
  | cons f fs ih =>
    rw [flatten_filterMap_cons, ← ih]
    unfold buildCode.setterFuncs
    rw [List.map_cons, List.flatten_cons]
    congr 1
    unfold setterOf
    by_cases hr : f.Required = true
    · simp [hr]
    · simp [hr, printSetter, setFlag]

/-- C12 (amended): the addFields body the template renders is, field by field, one
statement per field whose Param is not empty: an unconditional v.Add of its key and
value for a required field, and for an optional field a v.Add guarded by that field's
own flag, privateName followed by Set; a field with an empty Param contributes nothing.
The setters rendered are one per optional field, each setting the flag of its field;
when the private names of the fields are distinct, the flag of a field is set by the
setter of that field only. -/
theorem addFields_serialization (structName : Str) (fs : List Field) :
    buildCode.params fs = ((fs.filterMap addStmtOf).map printAdd).flatten ∧
    buildCode.setterFuncs structName fs =
      ((fs.filterMap (setterOf structName)).map printSetter).flatten ∧
    (∀ f : Field, f.Param ≠ [] → f.Required = true →
      addStmtOf f = some { key := f.ParamStr, val := buildCode.paramVal f, guard := none }) ∧
    (∀ f : Field, f.Param ≠ [] → f.Required = false →
      addStmtOf f = some { key := f.ParamStr, val := buildCode.paramVal f,
                           guard := some (setFlag f) }) ∧
    (∀ f : Field, f.Param = [] → addStmtOf f = none) ∧
    (∀ g : Field, g.Required = true → setterOf structName g = none) ∧
    (∀ g : Field, g.Required = false →
      ∃ m, setterOf structName g = some m ∧ m.member = g.PrivateName ∧ m.flag = setFlag g) ∧
    ((fs.map Field.PrivateName).Nodup →
      ∀ f ∈ fs, ∀ g ∈ fs, ∀ m, setterOf structName g = some m → m.flag = setFlag f → g = f) := by
  refine ⟨params_eq fs, setterFuncs_eq structName fs, ?_, ?_, ?_, ?_, ?_, ?_⟩
  · intro f hp hr
    unfold addStmtOf
    rw [if_neg hp, hr]
    rfl
  · intro f hp hr
    unfold addStmtOf
    rw [if_neg hp, hr]
    rfl
  · intro f hp
    unfold addStmtOf
    rw [if_pos hp]
  · intro g hr
    unfold setterOf
    rw [if_pos hr]
  · intro g hr
    unfold setterOf
    rw [hr]
    exact ⟨_, rfl, rfl, rfl⟩
  · intro hnd f hf g hg m hm hflag
    unfold setterOf at hm
    split at hm
    · cases hm
    · injection hm with hm
      rw [← hm] at hflag
      have hname : g.PrivateName = f.PrivateName :=
        List.append_cancel_right (show g.PrivateName ++ "Set".toList =
          f.PrivateName ++ "Set".toList from hflag)
      exact List.inj_on_of_nodup_map hnd hg hf hname

/-- Witness of addFields_serialization: the event type of a document with an optional
and a required event parameter. -/
theorem addFields_serialization_witness :
    buildCode.params (exFieldsOf [exHitTypeEntry, exLabelEntry, exActionEntry] "event".toList) =
      ("\tif h.labelSet \x7b\n\t\tv.Add(\"el\", h.label)\n\t\x7d\n" ++
        "\t\tv.Add(\"ea\", h.action)\n").toList ∧
    (∀ f ∈ exFieldsOf [exHitTypeEntry, exLabelEntry, exActionEntry] "event".toList,
      ∀ g ∈ exFieldsOf [exHitTypeEntry, exLabelEntry, exActionEntry] "event".toList,
      ∀ m, setterOf "Event".toList g = some m → m.flag = setFlag f → g = f) :=
  ⟨by
    rw [(addFields_serialization "Event".toList
      (exFieldsOf [exHitTypeEntry, exLabelEntry, exActionEntry] "event".toList)).1]
    decide,
   (addFields_serialization "Event".toList
      (exFieldsOf [exHitTypeEntry, exLabelEntry, exActionEntry] "event".toList)).2.2.2.2.2.2.2
      (by decide)⟩

/-- C12 (as stated) fails: an index pseudo-field is an optional field of its hit type
and contributes no v.Add at all; and when two optional fields bear the same name, the
flag guarding the v.Add of the first is the one the setter of the second sets. -/
theorem addFields_serialization_counterexample :
    ((exFieldsOf exDocument "event".toList)[3]? =
        some (pseudoField asciiCase "dimensionIndex".toList) ∧
      (pseudoField asciiCase "dimensionIndex".toList).Required = false ∧
      buildCode.params [pseudoField asciiCase "dimensionIndex".toList] = []) ∧
    ((exFieldsOf [exHitTypeEntry, exLabelEntry, exLabelAgainEntry] "event".toList).map
        (fun f => (f.Param, f.Required, (addStmtOf f).map AddStmt.guard,
          (setterOf "Event".toList f).map Setter.flag)) =
      [("el".toList, false, some (some "labelSet".toList), some "labelSet".toList),
       ("el2".toList, false, some (some "labelSet".toList), some "labelSet".toList)]) :=
  ⟨⟨rfl, rfl, rfl⟩, by decide⟩

theorem constructorParams_from (i : Nat) (fs : List Field) (hi : i ≠ 0) :
    ((fs.enumFrom i).map (fun p =>
      if p.2.Required then
        (if p.1 ≠ 0 then ",".toList else []) ++ p.2.PrivateName ++ " ".toList ++ p.2.Typ
      else [])).flatten =
    (((fs.filter (fun f => f.Required)).map (fun f => ",".toList ++ paramDecl f))).flatten := by
  induction fs generalizing i with
  | nil => rfl
  | cons f fs ih =>
    rw [List.enumFrom_cons, List.map_cons, List.flatten_cons, ih (i + 1) (by omega)]
    by_cases hr : f.Required = true
    · simp [hr, hi, paramDecl]
    · simp [hr]

/-- When the first field is required, the constructor parameter list is the
comma-separated sequence of the declarations of the required fields, in order. -/
theorem constructorParams_required_first (f : Field) (fs : List Field)
    (hr : f.Required = true) :
    buildCode.constructorParams (f :: fs) =
      ",".toList.intercalate (((f :: fs).filter (fun g => g.Required)).map paramDecl) := by
  unfold buildCode.constructorParams
  rw [List.enum, List.enumFrom_cons, List.map_cons, List.flatten_cons,
    constructorParams_from 1 fs (by decide)]
  simp only [hr, if_true, List.filter_cons, List.map_cons]
  have key : ∀ (d : Str) (l : List Str),
      ",".toList.intercalate (d :: l) = d ++ (l.map (fun x => ",".toList ++ x)).flatten := by
    intro d l
    induction l generalizing d with
    | nil => simp [List.intercalate]
    | cons x l ih =>
      have e : ",".toList.intercalate (d :: x :: l) =
          d ++ (",".toList ++ ",".toList.intercalate (x :: l)) := by
        simp [List.intercalate, List.intersperse]
      rw [e, ih x]
      simp
  rw [key, List.map_map]
  simp [paramDecl, Function.comp_def]

/-- C13 (the defect): for the event type of a document whose first event parameter is
optional and whose second is required, the constructor parameter list the template
renders starts with a comma. -/
theorem constructorParams_leading_comma :
    (exFieldsOf [exHitTypeEntry, exLabelEntry, exActionEntry] "event".toList).map
        (fun f => (f.PrivateName, f.Typ, f.Required)) =
      [("label".toList, "string".toList, false), ("action".toList, "string".toList, true)] ∧
    buildCode.constructorParams
        (exFieldsOf [exHitTypeEntry, exLabelEntry, exActionEntry] "event".toList) =
      ",action string".toList ∧
    buildCode.constructorBody
        (exFieldsOf [exHitTypeEntry, exLabelEntry, exActionEntry] "event".toList) =
      "\t\taction: action,\n".toList := by
  decide

/-- C14 (the defect): the prefix loop of processField treats all like the name of a
hit type, so a field of the common type whose identifier starts with All loses these
three letters: Allow Ad Personalization becomes owAdPersonalization, not the full
identifier AllowAdPersonalization. -/
theorem processField_common_stripped :
    (rawField exAllowEntry).HitTypes = ["all".toList] ∧
    (preslash (rawField exAllowEntry).Name).map (fun n => alpha (exportName asciiCase n)) =
      .ok "AllowAdPersonalization".toList ∧
    (processField asciiCase (rawField exAllowEntry)).map (fun f => (f.Name, f.PrivateName)) =
      .ok ("owAdPersonalization".toList, "owAdPersonalization".toList) :=
  ⟨rfl, rfl, rfl⟩

theorem preslash_eq (s : Str) :
    preslash s =
      if s.takeWhile (fun c => c != '/') = [] then
        .error ("'".toList ++ "^([^\\/]+)".toList ++ "' should match '".toList ++ s ++
          "' exactly once".toList)
      else .ok (s.takeWhile (fun c => c != '/')) := by
  unfold preslash grepper
  by_cases h : s.takeWhile (fun c => c != '/') = []
  · simp only [h, if_true]
  · simp only [h, if_false]

theorem alpha_flatten (l : List Str) : alpha l.flatten = (l.map alpha).flatten := by
  unfold alpha striper
  induction l with
  | nil => rfl
  | cons w l ih => simp [List.filter_append, ih]

/-- C15 (amended): the identifier processField computes before prefix stripping is the
text before the first slash, export-cased first (split on spaces, first rune of each
word upper-cased, concatenated) and then stripped of its non-letter characters: the
letters of the words, each word with its first rune upper-cased; processField aborts
when there is no text before the first slash. -/
theorem derivedName_order (U : CaseTable) (f : Field) :
    (f.Name.takeWhile (fun c => c != '/') ≠ [] →
      derivedName U f = .ok (f.HitTypes.foldl (fun name h => goName (exportName U h) name)
        (alpha (exportName U (f.Name.takeWhile (fun c => c != '/')))))) ∧
    (f.Name.takeWhile (fun c => c != '/') = [] → ∃ e, derivedName U f = .error e) ∧
    (∀ s : Str, alpha (exportName U s) =
      ((Split s " ".toList).map (fun w => alpha (FirstRuneToUpper U w))).flatten) := by
  refine ⟨fun hne => ?_, fun he => ?_, fun s => ?_⟩
  · unfold derivedName
    rw [preslash_eq, if_neg hne]
  · unfold derivedName
    rw [preslash_eq, if_pos he]
    exact ⟨_, rfl⟩
  · unfold exportName Join
    have e : ∀ l : List Str, List.intercalate [] l = l.flatten := by
      intro l
      induction l with
      | nil => rfl
      | cons w l ih =>
        cases l with
        | nil => simp [List.intercalate]
        | cons x l =>
          have e1 : List.intercalate [] (w :: x :: l) = w ++ List.intercalate [] (x :: l) := by
            simp [List.intercalate, List.intersperse]
          rw [e1, ih]
          rfl
    rw [e, alpha_flatten, List.map_map]
    rfl

/-- Witness of derivedName_order: the name User timing category of the timing type. -/
theorem derivedName_order_witness :
    derivedName asciiCase (rawField exTimingEntry) = .ok "UserTimingCategory".toList :=
  (derivedName_order asciiCase (rawField exTimingEntry)).1 (by decide)

/-- C15 (as stated) fails: stripping the non-letters first removes the spaces, so
export-casing afterwards upper-cases one letter only; the code export-cases first. -/
theorem derivedName_order_counterexample :
    specIdentifier asciiCase (rawField exTimingEntry).Name = "Usertimingcategory".toList ∧
    (preslash (rawField exTimingEntry).Name).map (fun n => alpha (exportName asciiCase n)) =
      .ok "UserTimingCategory".toList :=
  ⟨by decide, rfl⟩

theorem TrimPrefix_cases (s pre : Str) :
    (pre <+: s → s = pre ++ TrimPrefix s pre) ∧ (¬ pre <+: s → TrimPrefix s pre = s) := by
  unfold TrimPrefix
  constructor
  · intro hp
    rw [if_pos (List.isPrefixOf_iff_prefix.mpr hp)]
    obtain ⟨t, ht⟩ := hp
    rw [← ht, List.drop_left' rfl]
  · intro hp
    rw [if_neg (fun h => hp (List.isPrefixOf_iff_prefix.mp h))]

/-- C18: for a field owned by a single hit type h, processField removes one leading
copy of exportName(h) from the derived identifier when the identifier begins with it,
and leaves the identifier unchanged otherwise; PrivateName is the resulting name with
its first rune lower-cased, and Name is the resulting name (HitType excepted, which is
unexported). -/
theorem processField_single_owner (U : CaseTable) (f f1 : Field) (h n : Str)
    (hp : processField U f = .ok f1) (hh : f.HitTypes = [h]) (hn : preslash f.Name = .ok n) :
    derivedName U f = .ok (TrimPrefix (alpha (exportName U n)) (exportName U h)) ∧
    (exportName U h <+: alpha (exportName U n) →
      alpha (exportName U n) =
        exportName U h ++ TrimPrefix (alpha (exportName U n)) (exportName U h)) ∧
    (¬ exportName U h <+: alpha (exportName U n) →
      TrimPrefix (alpha (exportName U n)) (exportName U h) = alpha (exportName U n)) ∧
    f1.PrivateName =
      FirstRuneToLower U (TrimPrefix (alpha (exportName U n)) (exportName U h)) ∧
    f1.Name =
      (if TrimPrefix (alpha (exportName U n)) (exportName U h) = "HitType".toList
        then FirstRuneToLower U (TrimPrefix (alpha (exportName U n)) (exportName U h))
        else TrimPrefix (alpha (exportName U n)) (exportName U h)) := by
  have hd : derivedName U f =
      .ok (TrimPrefix (alpha (exportName U n)) (exportName U h)) := by
    unfold derivedName
    rw [hn, hh]
    rfl
  obtain ⟨name, ty, acc, hd1, _, _, e⟩ := processField_ok U f f1 hp
  rw [hd] at hd1
  injection hd1 with hd1
  refine ⟨hd, (TrimPrefix_cases _ _).1, (TrimPrefix_cases _ _).2, ?_, ?_⟩
  · rw [e, hd1]
    unfold processNames
    simp only
    split_ifs <;> rfl
  · rw [e, hd1]
    simp only [processNames_Name]

/-- Witness of processField_single_owner: Event Event Action, owned by event, becomes
EventAction, and Event Action becomes Action with private name action. -/
theorem processField_single_owner_witness :
    derivedName asciiCase (rawField exStutterEntry) = .ok "EventAction".toList ∧
    derivedName asciiCase (rawField exEventEntry) = .ok "Action".toList ∧
    ((processField asciiCase (rawField exEventEntry)).toOption.getD {}).PrivateName =
      "action".toList :=
  ⟨(processField_single_owner asciiCase (rawField exStutterEntry) _ "event".toList
      "Event Event Action".toList rfl rfl rfl).1,
   (processField_single_owner asciiCase (rawField exEventEntry) _ "event".toList
      "Event Action".toList rfl rfl rfl).1,
   (processField_single_owner asciiCase (rawField exEventEntry) _ "event".toList
      "Event Action".toList rfl rfl rfl).2.2.2.1⟩

theorem alpha_isAlpha (s : Str) : ∀ c ∈ alpha s, isAlpha c = true := by
  intro c hc
  unfold alpha striper at hc
  have := (List.mem_filter.mp hc).2
  simpa using this

theorem TrimPrefix_subset (s pre : Str) : ∀ c ∈ TrimPrefix s pre, c ∈ s := by
  intro c hc
  unfold TrimPrefix at hc
  split_ifs at hc
  · exact List.mem_of_mem_drop hc
  · exact hc

theorem goName_fold_isAlpha (U : CaseTable) (hs : List Str) (name : Str)
    (hname : ∀ c ∈ name, isAlpha c = true) :
    ∀ c ∈ hs.foldl (fun name h => goName (exportName U h) name) name, isAlpha c = true := by
  induction hs generalizing name with
  | nil => exact hname
  | cons h hs ih =>
    rw [List.foldl_cons]
    apply ih
    intro c hc
    exact hname c (TrimPrefix_subset _ _ c hc)

theorem FirstRuneToLower_isAlpha (U : CaseTable)
    (hU : ∀ c, isAlpha c = true → isAlpha (U.toLower c) = true) (s : Str)
    (hs : ∀ c ∈ s, isAlpha c = true) : ∀ c ∈ FirstRuneToLower U s, isAlpha c = true := by
  cases s with
  | nil => exact hs
  | cons r rest =>
    by_cases hu : U.isUpper r = true
    · have e0 : FirstRuneToLower U (r :: rest) = U.toLower r :: rest := by
        simp only [FirstRuneToLower, hu, if_true]
      rw [e0]
      intro c hc
      rcases List.mem_cons.mp hc with e | e
      · rw [e]
        exact hU r (hs r (List.mem_cons_self _ _))
      · exact hs c (List.mem_cons_of_mem _ e)
    · have e0 : FirstRuneToLower U (r :: rest) = r :: rest := by
        simp only [FirstRuneToLower, hu]
        rfl
      rw [e0]
      exact hs

theorem asciiCase_toLower_isAlpha (c : Char) (hc : isAlpha c = true) :
    isAlpha (asciiCase.toLower c) = true := by
  have key : ∀ k, k < 91 → 65 ≤ k → isAlpha (Char.ofNat (k + 32)) = true := by decide
  unfold asciiCase
  simp only
  split_ifs with h1
  · simp only [Bool.and_eq_true, decide_eq_true_eq] at h1
    exact key c.toNat (by omega) h1.1
  · exact hc

theorem indexNames_isAlpha (key : Str) :
    ∀ i ∈ indexNames key, i ≠ [] ∧ ∀ c ∈ i, isAlpha c = true := by
  intro i hi
  unfold indexNames at hi
  obtain ⟨p, hp, e⟩ := List.mem_filterMap.mp hi
  cases p with
  | lit c => cases e
  | var g =>
    injection e with e
    rw [← e]
    exact (scanPieces_mem 0 key _ hp).2 g rfl

/-- C20: for every field on which processField succeeds, Name and PrivateName consist
solely of the letters A-Z and a-z, and every index name processField records is a
non-empty string of such letters (so every name in Indices is, for a field that comes
from parse with no index yet); the case table is taken to map the letters A-Z to
letters, as the Unicode tables do. -/
theorem processField_identifiers (U : CaseTable)
    (hU : ∀ c, isAlpha c = true → isAlpha (U.toLower c) = true) (f f1 : Field)
    (hp : processField U f = .ok f1) :
    (∀ c ∈ f1.Name, isAlpha c = true) ∧
    (∀ c ∈ f1.PrivateName, isAlpha c = true) ∧
    f1.Indices = f.Indices ++ indexNames f.Param ∧
    (∀ i ∈ indexNames f.Param, i ≠ [] ∧ ∀ c ∈ i, isAlpha c = true) ∧
    (f.Indices = [] → ∀ i ∈ f1.Indices, i ≠ [] ∧ ∀ c ∈ i, isAlpha c = true) := by
  obtain ⟨name, ty, acc, hd, _, hacc, e⟩ := processField_ok U f f1 hp
  have hname : ∀ c ∈ name, isAlpha c = true := by
    unfold derivedName at hd
    split at hd
    · cases hd
    · injection hd with hd
      rw [← hd]
      exact goName_fold_isAlpha U _ _ (alpha_isAlpha _)
  have hlow := FirstRuneToLower_isAlpha U hU name hname
  have hI : f1.Indices = f.Indices ++ indexNames f.Param := by
    have h1 := paramLoop_scan f.Param.length f.Param "\"".toList f.Indices (le_refl _) (by
      intro b hb hs
      cases b with
      | nil => exact absurd rfl hb
      | cons d b =>
        have hd : d ∈ "\"".toList := hs.subset (List.mem_cons_self _ _)
        have hd1 : d = '"' := by simpa using hd
        exact matchDelim_head _ _ _ _ _ (by rw [hd1]; decide))
    have e1 : "\"".toList ++ f.Param ++ "\"".toList =
        "\"".toList ++ (f.Param ++ "\"".toList) := by simp
    rw [e1, h1] at hacc
    injection hacc with hacc
    rw [e, ← hacc]
  refine ⟨?_, ?_, hI, indexNames_isAlpha f.Param, ?_⟩
  · rw [e]
    simp only [processNames_Name]
    split_ifs
    · exact hlow
    · exact hname
  · have hpn : f1.PrivateName = FirstRuneToLower U name := by
      rw [e]
      unfold processNames
      simp only
      split_ifs <;> rfl
    rw [hpn]
    exact hlow
  · intro h0 i hi
    rw [hI, h0, List.nil_append] at hi
    exact indexNames_isAlpha f.Param i hi

/-- Witness of processField_identifiers: a parameter with two placeholders in its
key. -/
theorem processField_identifiers_witness :
    ((processField asciiCase (rawField exImpressionEntry)).toOption.getD {}).Name =
      "ProductImpressionSKU".toList ∧
    ((processField asciiCase (rawField exImpressionEntry)).toOption.getD {}).Indices =
      ["listIndex".toList, "productIndex".toList] ∧
    (∀ c ∈ ((processField asciiCase (rawField exImpressionEntry)).toOption.getD {}).PrivateName,
      isAlpha c = true) :=
  ⟨by decide, by decide,
   (processField_identifiers asciiCase asciiCase_toLower_isAlpha
    (rawField exImpressionEntry) _ rfl).2.1⟩

/-! ## Claims on the enumeration of the hit types -/

theorem firstMatch_some (lq rq : Char) (cls : Char → Bool) (s g : Str)
    (h : firstMatch lq cls rq s = some g) :
    ∃ a b, s = a ++ lq :: (g ++ rq :: b) ∧ g ≠ [] ∧ ∀ c ∈ g, cls c = true := by
  induction s with
  | nil => simp [firstMatch] at h
  | cons c rest ih =>
    unfold firstMatch at h
    cases hm : matchDelim lq cls rq (c :: rest) with
    | some g0 =>
      rw [hm] at h
      injection h with h
      subst h
      obtain ⟨hne, hg, hshape⟩ := matchDelim_some lq rq cls _ g0 hm
      exact ⟨[], _, hshape, hne, hg⟩
    | none =>
      rw [hm] at h
      obtain ⟨a, b, e, hne, hg⟩ := ih h
      exact ⟨c :: a, b, by rw [e]; rfl, hne, hg⟩

theorem firstMatch_of_shape (lq rq : Char) (cls : Char → Bool) (a g b : Str) (hne : g ≠ [])
    (hg : ∀ c ∈ g, cls c = true) (hrq : cls rq = false) :
    ∃ g0, firstMatch lq cls rq (a ++ lq :: (g ++ rq :: b)) = some g0 := by
  induction a with
  | nil =>
    have hm := matchDelim_shape lq rq cls g b hne hg hrq
    exact ⟨g, by rw [List.nil_append, firstMatch, hm]⟩
  | cons c a ih =>
    rw [List.cons_append, firstMatch]
    cases hm : matchDelim lq cls rq (c :: (a ++ lq :: (g ++ rq :: b))) with
    | some g0 => exact ⟨g0, rfl⟩
    | none => exact ih

theorem strVar_ok_iff (piece k : Str) :
    strVar piece = .ok k ↔ firstMatch (Char.ofNat 39) isLowerAZ (Char.ofNat 39) piece = some k := by
  unfold strVar grepper
  cases firstMatch (Char.ofNat 39) isLowerAZ (Char.ofNat 39) piece with
  | none => simp
  | some g => simp

theorem strVar_ok_of_hasQuotedName (piece : Str) (h : hasQuotedName piece) :
    ∃ k, strVar piece = .ok k := by
  obtain ⟨a, n, b, e, hne, hn⟩ := h
  obtain ⟨g0, hg0⟩ := firstMatch_of_shape (Char.ofNat 39) (Char.ofNat 39) isLowerAZ a n b hne hn
    (by decide)
  exact ⟨g0, (strVar_ok_iff _ _).mpr (e ▸ hg0)⟩

theorem strVar_error_of_not (piece : Str) (h : ¬ hasQuotedName piece) :
    ∃ e, strVar piece = .error e := by
  cases hs : strVar piece with
  | error e => exact ⟨e, rfl⟩
  | ok k =>
    exfalso
    apply h
    obtain ⟨a, b, e, hne, hk⟩ := firstMatch_some _ _ _ _ _ ((strVar_ok_iff _ _).mp hs)
    exact ⟨a, k, b, e, hne, hk⟩

theorem registerTypes_error (ts : List Str) (reg : Registry)
    (h : ∃ piece ∈ ts, ∃ e, strVar piece = .error e) :
    ∃ e, registerTypes ts reg = .error e := by
  induction ts generalizing reg with
  | nil => simp at h
  | cons t ts ih =>
    unfold registerTypes
    cases hs : strVar t with
    | error e => exact ⟨e, rfl⟩
    | ok t1 =>
      obtain ⟨piece, hm, e, he⟩ := h
      rcases List.mem_cons.mp hm with e1 | e1
      · rw [e1, hs] at he
        cases he
      · exact ih _ ⟨piece, e1, e, he⟩

/-- C17: when buildTypes succeeds, the registry holds exactly one hit type per key, its
keys are client and the names the pieces of the enumeration yield, and every record has
its key as Name; the name a piece yields is a single-quoted lowercase name of that
piece. When every comma-separated piece contains a single-quoted lowercase name the
registration cannot abort, and a piece containing none, as in the empty enumeration,
aborts the run. -/
theorem buildTypes_registry :
    (∀ (docs : Str) (fs : List Field) (st1 : State),
      buildTypes docs (extracted fs) = .ok st1 →
      (regKeys st1.hitTypes).Nodup ∧
      (∀ k, k ∈ regKeys st1.hitTypes ↔
        (k = "client".toList ∨ ∃ piece ∈ Split docs ",".toList, strVar piece = .ok k)) ∧
      (∀ k h1, regGet st1.hitTypes k = some h1 → h1.Name = k)) ∧
    (∀ piece k : Str, strVar piece = .ok k →
      ∃ a b, piece = a ++ Char.ofNat 39 :: (k ++ Char.ofNat 39 :: b) ∧ k ≠ [] ∧
        ∀ c ∈ k, isLowerAZ c = true) ∧
    (∀ docs : Str, (∀ piece ∈ Split docs ",".toList, hasQuotedName piece) →
      ∃ st1, buildTypes docs (extracted []) = .ok st1) ∧
    (∀ (docs : Str) (st : State), (∃ piece ∈ Split docs ",".toList, ¬ hasQuotedName piece) →
      ∃ e, buildTypes docs st = .error e) ∧
    (∀ st : State, ∃ e, buildTypes [] st = .error e) := by
  have habort : ∀ (docs : Str) (st : State),
      (∃ piece ∈ Split docs ",".toList, ¬ hasQuotedName piece) →
      ∃ e, buildTypes docs st = .error e := by
    intro docs st ⟨piece, hm, hq⟩
    obtain ⟨e, he⟩ := registerTypes_error (Split docs ",".toList) st.hitTypes
      ⟨piece, hm, strVar_error_of_not piece hq⟩
    exact ⟨e, by unfold buildTypes; rw [he]⟩
  refine ⟨?_, ?_, ?_, habort, ?_⟩
  · intro docs fs st1 h
    obtain ⟨hnd, hshape⟩ := buildTypes_wellFormed docs fs st1 h
    refine ⟨hnd, ?_, ?_⟩
    · intro k
      rw [← regGet_isSome_iff]
      unfold buildTypes extracted at h
      split at h
      · simp at h
      · next reg hr =>
        split at h
        · simp at h
        · next reg1 hp =>
          simp only [Except.ok.injEq] at h
          subst h
          simp only at hr hp ⊢
          rw [placeAll_get _ _ _ _ k hp]
          have h1 := registerTypes_isSome _ _ _ hr k
          rw [init_isSome] at h1
          rw [← h1]
          cases regGet reg k <;> rfl
    · intro k h1 hg
      rw [hshape k h1 hg]
  · intro piece k hs
    exact firstMatch_some _ _ _ _ _ ((strVar_ok_iff _ _).mp hs)
  · intro docs hq
    have hp : ∀ piece ∈ Split docs ",".toList, ∃ t, strVar piece = .ok t :=
      fun piece hm => strVar_ok_of_hasQuotedName piece (hq piece hm)
    obtain ⟨reg, hr⟩ := registerTypes_ok (Split docs ",".toList) State.init.hitTypes hp
    refine ⟨{ allFields := [], hitTypes := reg }, ?_⟩
    unfold buildTypes extracted
    simp only [hr]
    rfl
  · intro st
    apply habort
    refine ⟨[], by decide, ?_⟩
    rintro ⟨a, n, b, e, _, _⟩
    cases a <;> cases e

/-- Witness of buildTypes_registry: the registry of a four-entry document holds client,
pageview and event, each named by its key. -/
theorem buildTypes_registry_witness :
    regKeys exBuilt.hitTypes = ["client".toList, "pageview".toList, "event".toList] ∧
    (regKeys exBuilt.hitTypes).Nodup ∧
    (∀ k h1, regGet exBuilt.hitTypes k = some h1 → h1.Name = k) ∧
    (∃ e, buildTypes "The type of hit, such as pageview.".toList State.init = .error e) :=
  ⟨by decide,
   (buildTypes_registry.1 (parseLoop exDocument []).1 (parseLoop exDocument []).2 exBuilt
     rfl).1,
   (buildTypes_registry.1 (parseLoop exDocument []).1 (parseLoop exDocument []).2 exBuilt
     rfl).2.2,
   buildTypes_registry.2.2.2.1 "The type of hit, such as pageview.".toList State.init
     ⟨"The type of hit".toList, by decide, by
       rintro ⟨a, n, b, e, _, _⟩
       have hq : Char.ofNat 39 ∈ "The type of hit".toList := by
         rw [e]
         simp
       exact absurd hq (by decide)⟩⟩

/-! ## Claims on comment -/

theorem wrapAux_ne_nil (cur : List Str) (width : Nat) (ws : List Str) :
    wrapAux cur width ws ≠ [] := by
  induction ws generalizing cur width with
  | nil => simp [wrapAux]
  | cons w ws ih =>
    unfold wrapAux
    split_ifs
    · simp
    · exact ih _ _

theorem intercalate_cons_ne (sep d : Str) (l : List Str) (hl : l ≠ []) :
    sep.intercalate (d :: l) = d ++ sep ++ sep.intercalate l := by
  cases l with
  | nil => exact absurd rfl hl
  | cons x l => simp [List.intercalate, List.intersperse]

theorem joinSp_append (a b : List Str) : joinSp (a ++ b) = joinSp a ++ joinSp b := by
  simp [joinSp]

/-- The text function comment builds is its lines joined by line feeds. -/
theorem commentTail_lines (cur : List Str) (width : Nat) (ws : List Str) :
    commentLine cur ++ commentTail width ws =
      "\n".toList.intercalate ((wrapAux cur width ws).map commentLine) := by
  induction ws generalizing cur width with
  | nil => simp [commentTail, wrapAux, List.intercalate]
  | cons w ws ih =>
    by_cases hw : width > 55
    · have e : commentTail width (w :: ws) =
          "\n".toList ++ (commentLine [w] ++ commentTail (len w + 1) ws) := by
        simp only [commentTail, if_pos hw, Nat.zero_add]
        simp [commentLine, joinSp]
      have e2 : wrapAux cur width (w :: ws) = cur :: wrapAux [w] (len w + 1) ws := by
        rw [wrapAux, if_pos hw]
      rw [e, e2, List.map_cons, intercalate_cons_ne _ _ _ (by
        simpa using wrapAux_ne_nil [w] (len w + 1) ws), ih]
      simp
    · have e : commentLine cur ++ commentTail width (w :: ws) =
          commentLine (cur ++ [w]) ++ commentTail (width + (len w + 1)) ws := by
        simp only [commentTail, if_neg hw]
        simp [commentLine, joinSp]
      have e2 : wrapAux cur width (w :: ws) =
          wrapAux (cur ++ [w]) (width + (len w + 1)) ws := by
        rw [wrapAux, if_neg hw]
      rw [e, e2, ih]

theorem comment_lines (s : Str) :
    comment s = "\n".toList.intercalate ((wrapLines (Split s " ".toList)).map commentLine) := by
  rw [comment_eq]
  exact commentTail_lines [] 0 _

theorem wrapAux_flatten (cur : List Str) (width : Nat) (ws : List Str) :
    (wrapAux cur width ws).flatten = cur ++ ws := by
  induction ws generalizing cur width with
  | nil => simp [wrapAux]
  | cons w ws ih =>
    unfold wrapAux
    split_ifs
    · simp [ih]
    · rw [ih]
      simp

theorem len_append (a b : Str) : len (a ++ b) = len a + len b := by
  simp [len]

theorem len_joinSp_snoc (cur : List Str) (w : Str) :
    len (joinSp (cur ++ [w])) = len (joinSp cur) + (len w + 1) := by
  rw [joinSp_append, len_append]
  have e : joinSp [w] = ' ' :: w := by simp [joinSp]
  rw [e]
  have e2 : len (' ' :: w) = len w + 1 := by
    simp [len, runeLen]
    omega
  rw [e2]

/-- Every line of a comment but the last holds more than 55 bytes after its slashes, and
no line is empty. -/
theorem wrapAux_lines (cur : List Str) (width : Nat) (ws : List Str)
    (hinv : width = len (joinSp cur)) :
    (∀ l ∈ (wrapAux cur width ws).dropLast, len (joinSp l) > 55) ∧
    ((cur ≠ [] ∨ ws ≠ []) → ∀ l ∈ wrapAux cur width ws, l ≠ []) := by
  induction ws generalizing cur width with
  | nil =>
    constructor
    · simp [wrapAux]
    · intro h l hl
      simp only [wrapAux, List.mem_singleton] at hl
      rcases h with h | h
      · exact hl ▸ h
      · exact absurd rfl h
  | cons w ws ih =>
    by_cases hw : width > 55
    · have e2 : wrapAux cur width (w :: ws) = cur :: wrapAux [w] (len w + 1) ws := by
        rw [wrapAux, if_pos hw]
      have hinv1 : len w + 1 = len (joinSp [w]) := by
        have := len_joinSp_snoc [] w
        simp only [List.nil_append] at this
        rw [this]
        simp [joinSp, len]
      obtain ⟨ih1, ih2⟩ := ih [w] (len w + 1) hinv1
      rw [e2]
      constructor
      · intro l hl
        rw [List.dropLast_cons_of_ne_nil (wrapAux_ne_nil _ _ _)] at hl
        rcases List.mem_cons.mp hl with e | e
        · rw [e, ← hinv]
          exact hw
        · exact ih1 l e
      · intro _ l hl
        rcases List.mem_cons.mp hl with e | e
        · rw [e]
          intro hc
          rw [hc] at hinv
          have : len (joinSp ([] : List Str)) = 0 := rfl
          omega
        · exact ih2 (Or.inl (by simp)) l e
    · have e2 : wrapAux cur width (w :: ws) =
          wrapAux (cur ++ [w]) (width + (len w + 1)) ws := by
        rw [wrapAux, if_neg hw]
      have hinv1 : width + (len w + 1) = len (joinSp (cur ++ [w])) := by
        rw [len_joinSp_snoc, hinv]
      obtain ⟨ih1, ih2⟩ := ih (cur ++ [w]) _ hinv1
      rw [e2]
      exact ⟨ih1, fun _ => ih2 (Or.inl (by simp))⟩

theorem Split_newline (t : Str) : Split t "\n".toList = splitAux ['\n'] 0 t := by
  unfold Split
  rw [if_neg (by decide)]
  rfl

theorem splitAux_newline_single (l : Str) (hl : '\n' ∉ l) : splitAux ['\n'] 0 l = [l] := by
  induction l with
  | nil => rfl
  | cons c l ih =>
    have hc : c ≠ '\n' := fun e => hl (e ▸ List.mem_cons_self _ _)
    have e : ¬ List.isPrefixOf ['\n'] (c :: l) = true := by
      simp [List.isPrefixOf, Ne.symm hc]
    rw [splitAux, if_neg e, ih (fun h => hl (List.mem_cons_of_mem _ h))]
    rfl

theorem splitAux_newline_append (l r : Str) (hl : '\n' ∉ l) :
    splitAux ['\n'] 0 (l ++ '\n' :: r) = l :: splitAux ['\n'] 0 r := by
  induction l with
  | nil =>
    have e : List.isPrefixOf ['\n'] ('\n' :: r) = true := by simp [List.isPrefixOf]
    rw [List.nil_append, splitAux, if_pos e]
    rfl
  | cons c l ih =>
    have hc : c ≠ '\n' := fun e => hl (e ▸ List.mem_cons_self _ _)
    have e : ¬ List.isPrefixOf ['\n'] (c :: (l ++ '\n' :: r)) = true := by
      simp [List.isPrefixOf, Ne.symm hc]
    rw [List.cons_append, splitAux, if_neg e, ih (fun h => hl (List.mem_cons_of_mem _ h))]
    rfl

theorem splitAux_intercalate (ls : List Str) (hne : ls ≠ []) (hl : ∀ l ∈ ls, '\n' ∉ l) :
    splitAux ['\n'] 0 ("\n".toList.intercalate ls) = ls := by
  induction ls with
  | nil => exact absurd rfl hne
  | cons d ls ih =>
    cases ls with
    | nil =>
      have e : "\n".toList.intercalate [d] = d := by simp [List.intercalate]
      rw [e, splitAux_newline_single d (hl d (List.mem_cons_self _ _))]
    | cons x ls =>
      rw [intercalate_cons_ne _ _ _ (by simp)]
      have e : d ++ "\n".toList ++ "\n".toList.intercalate (x :: ls) =
          d ++ '\n' :: "\n".toList.intercalate (x :: ls) := by simp
      rw [e, splitAux_newline_append d _ (hl d (List.mem_cons_self _ _)),
        ih (by simp) (fun l h => hl l (List.mem_cons_of_mem _ h))]

theorem mem_of_mem_joinSp (ws : List Str) (c : Char) (hc : c ∈ joinSp ws) :
    c = ' ' ∨ ∃ w ∈ ws, c ∈ w := by
  unfold joinSp at hc
  rw [List.mem_flatten] at hc
  obtain ⟨l, hl, hcl⟩ := hc
  obtain ⟨w, hw, e⟩ := List.mem_map.mp hl
  rw [← e] at hcl
  rcases List.mem_cons.mp hcl with e1 | e1
  · exact Or.inl e1
  · exact Or.inr ⟨w, hw, e1⟩

theorem mem_joinSp_of_mem (ws : List Str) (w : Str) (hw : w ∈ ws) (c : Char) (hc : c ∈ w) :
    c ∈ joinSp ws := by
  unfold joinSp
  rw [List.mem_flatten]
  exact ⟨' ' :: w, List.mem_map_of_mem _ hw, List.mem_cons_of_mem _ hc⟩

theorem commentLine_no_newline (s : Str) (hs : '\n' ∉ s) :
    ∀ l ∈ wrapLines (Split s " ".toList), '\n' ∉ commentLine l := by
  intro l hl hc
  unfold commentLine at hc
  rcases List.mem_append.mp hc with h1 | h1
  · exact absurd h1 (by decide)
  · rcases mem_of_mem_joinSp l _ h1 with e | ⟨w, hw, hcw⟩
    · exact absurd e (by decide)
    · have hwm : w ∈ (wrapLines (Split s " ".toList)).flatten :=
        List.mem_flatten.mpr ⟨l, hl, hw⟩
      unfold wrapLines at hwm
      rw [wrapAux_flatten, List.nil_append] at hwm
      have h2 := mem_joinSp_of_mem _ w hwm _ hcw
      rw [joinSp_split_space] at h2
      rcases List.mem_cons.mp h2 with e | e
      · exact absurd e (by decide)
      · exact hs e

/-- C16 (amended): for every description s that contains no line feed, the lines of
comment(s), splitting on the line feed, are the comment lines of its groups of words,
and every one of them begins with two slashes. -/
theorem comment_wellFormed (s : Str) (hs : '\n' ∉ s) :
    Split (comment s) "\n".toList = (wrapLines (Split s " ".toList)).map commentLine ∧
    ∀ line ∈ Split (comment s) "\n".toList, "//".toList <+: line := by
  have e : Split (comment s) "\n".toList =
      (wrapLines (Split s " ".toList)).map commentLine := by
    rw [Split_newline, comment_lines]
    apply splitAux_intercalate
    · simpa [wrapLines] using wrapAux_ne_nil [] 0 (Split s " ".toList)
    · intro l hl
      obtain ⟨l0, hl0, e0⟩ := List.mem_map.mp hl
      rw [← e0]
      exact commentLine_no_newline s hs l0 hl0
  refine ⟨e, ?_⟩
  intro line hline
  rw [e] at hline
  obtain ⟨l0, _, e0⟩ := List.mem_map.mp hline
  rw [← e0]
  exact List.prefix_append _ _

/-- Witness of comment_wellFormed: a description of three words. -/
theorem comment_wellFormed_witness :
    Split (comment "The protocol version.".toList) "\n".toList =
      ["// The protocol version.".toList] ∧
    ∀ line ∈ Split (comment "The protocol version.".toList) "\n".toList,
      "//".toList <+: line :=
  ⟨by decide, (comment_wellFormed "The protocol version.".toList (by decide)).2⟩

/-- C16 (as stated) fails: a line feed inside the description is copied into the comment,
and the text after it is a line that does not begin with two slashes. -/
theorem comment_wellFormed_counterexample :
    (rawField { docs := " first line\nsecond line ".toList }).Docs =
      "first line\nsecond line".toList ∧
    Split (comment "first line\nsecond line".toList) "\n".toList =
      ["// first line".toList, "second line".toList] ∧
    ¬ "//".toList <+: "second line".toList := by
  decide

theorem deleteAll_skip (pat : Str) (k : Nat) (s : Str) :
    deleteAll pat k s = deleteAll pat 0 (s.drop k) := by
  induction s generalizing k with
  | nil => cases k <;> simp [deleteAll]
  | cons c rest ih =>
    cases k with
    | zero => rfl
    | succ k => simp only [deleteAll, List.drop_succ_cons, ih k]

theorem deleteAll_none (pat t : Str) (h : ¬ pat <:+: t) : deleteAll pat 0 t = t := by
  induction t with
  | nil => rfl
  | cons c t ih =>
    rw [List.infix_cons_iff, not_or] at h
    have e : ¬ pat.isPrefixOf (c :: t) = true := fun hp =>
      h.1 (List.isPrefixOf_iff_prefix.mp hp)
    rw [deleteAll, if_neg e, ih h.2]

theorem deleteAll_at (x pat y : Str) (hpat : pat ≠ [])
    (hno : ∀ b, b ≠ [] → b <:+ x → ¬ pat <+: b ++ (pat ++ y)) :
    deleteAll pat 0 (x ++ (pat ++ y)) = x ++ deleteAll pat 0 y := by
  induction x with
  | nil =>
    cases hp : pat with
    | nil => exact absurd hp hpat
    | cons c rest =>
      have e0 : ([] : Str) ++ ((c :: rest) ++ y) = c :: (rest ++ y) := rfl
      have hpre : (c :: rest).isPrefixOf (c :: (rest ++ y)) = true := by
        rw [List.isPrefixOf_iff_prefix]
        exact List.prefix_append (c :: rest) y
      rw [e0, deleteAll, if_pos hpre, deleteAll_skip]
      have e1 : (rest ++ y).drop ((c :: rest).length - 1) = y := by
        have : (c :: rest).length - 1 = rest.length := by simp
        rw [this]
        exact List.drop_left' rfl
      rw [e1]
      rfl
  | cons c x ih =>
    have h0 : ¬ pat.isPrefixOf (c :: (x ++ (pat ++ y))) = true := by
      rw [List.isPrefixOf_iff_prefix]
      exact hno (c :: x) (by simp) (List.suffix_refl _)
    have e : (c :: x) ++ (pat ++ y) = c :: (x ++ (pat ++ y)) := rfl
    rw [e, deleteAll, if_neg h0,
      ih (fun b hb hs => hno b hb (hs.trans (List.suffix_cons _ _)))]
    rfl

theorem lineBreak_not_early (b y : Str) (hb : b ≠ []) (hnin : ¬ lineBreak <:+: b) :
    ¬ lineBreak <+: b ++ (lineBreak ++ y) := by
  intro hp
  have e : lineBreak = ['\n', '/', '/'] := rfl
  rw [e] at hp hnin
  cases b with
  | nil => exact absurd rfl hb
  | cons x b =>
    cases b with
    | nil =>
      simp only [List.cons_append, List.nil_append, List.cons_prefix_cons] at hp
      exact absurd hp.2.1 (by decide)
    | cons y1 b =>
      cases b with
      | nil =>
        simp only [List.cons_append, List.nil_append, List.cons_prefix_cons] at hp
        exact absurd hp.2.2.1 (by decide)
      | cons z b =>
        simp only [List.cons_append, List.cons_prefix_cons] at hp
        apply hnin
        rw [← hp.1, ← hp.2.1, ← hp.2.2.1]
        exact (List.prefix_append ['\n', '/', '/'] b).isInfix

/-- Deleting the line breaks from the text function comment builds gives the words back,
each preceded by its space. -/
theorem deleteAll_commentTail (ws : List Str) (x : Str) (width : Nat)
    (h : ¬ lineBreak <:+: x ++ joinSp ws) :
    deleteAll lineBreak 0 (x ++ commentTail width ws) = x ++ joinSp ws := by
  induction ws generalizing x width with
  | nil =>
    simp only [commentTail, joinSp, List.map_nil, List.flatten_nil, List.append_nil] at h ⊢
    exact deleteAll_none _ _ h
  | cons w ws ih =>
    by_cases hw : width > 55
    · have e : x ++ commentTail width (w :: ws) =
          x ++ (lineBreak ++ ((' ' :: w) ++ commentTail (len w + 1) ws)) := by
        simp only [commentTail, if_pos hw, Nat.zero_add]
        simp [lineBreak]
      have hx : ¬ lineBreak <:+: x := fun hc =>
        h (hc.trans (List.prefix_append _ _).isInfix)
      rw [e, deleteAll_at x lineBreak _ (by decide) (fun b hb hs =>
        lineBreak_not_early b _ hb (fun hc => hx (hc.trans hs.isInfix)))]
      have hrest : ¬ lineBreak <:+: (' ' :: w) ++ joinSp ws := by
        intro hc
        apply h
        rw [joinSp_cons]
        exact hc.trans (List.suffix_append _ _).isInfix
      rw [ih (' ' :: w) _ hrest, joinSp_cons]
      rfl
    · have e : x ++ commentTail width (w :: ws) =
          (x ++ ' ' :: w) ++ commentTail (width + (len w + 1)) ws := by
        simp only [commentTail, if_neg hw]
        simp
      have hrest : ¬ lineBreak <:+: (x ++ ' ' :: w) ++ joinSp ws := by
        rw [joinSp_cons] at h
        simpa using h
      rw [e, ih _ _ hrest, joinSp_cons]
      simp

/-- C19 (amended): comment loses and adds no text: for every s that does not itself
contain the line break, deleting every line break from comment(s) yields the two
slashes, a space and s; the output is the comment lines of groups of whole words that
together are the words of s in order, no group is empty (a line break only stands
between two words) and every line followed by a line break holds more than 55 bytes
after its slashes, as len counts them. -/
theorem comment_lossless :
    (∀ s : Str, ¬ lineBreak <:+: s →
      deleteAll lineBreak 0 (comment s) = "// ".toList ++ s) ∧
    (∀ s : Str,
      comment s = "\n".toList.intercalate ((wrapLines (Split s " ".toList)).map commentLine) ∧
      (wrapLines (Split s " ".toList)).flatten = Split s " ".toList ∧
      (∀ l ∈ wrapLines (Split s " ".toList), l ≠ []) ∧
      (∀ l ∈ (wrapLines (Split s " ".toList)).dropLast, len (joinSp l) > 55)) := by
  constructor
  · intro s hs
    rw [comment_eq]
    have h1 : ¬ lineBreak <:+: "//".toList ++ joinSp (Split s " ".toList) := by
      rw [joinSp_split_space]
      intro hc
      apply hs
      have e : "//".toList ++ ' ' :: s = '/' :: '/' :: ' ' :: s := rfl
      rw [e] at hc
      have h2 := infix_drop_head lineBreak _ '/' (by decide) (by decide) hc
      have h3 := infix_drop_head lineBreak _ '/' (by decide) (by decide) h2
      exact infix_drop_head lineBreak _ ' ' (by decide) (by decide) h3
    rw [deleteAll_commentTail _ _ _ h1, joinSp_split_space]
    rfl
  · intro s
    have hw := wrapAux_lines [] 0 (Split s " ".toList) rfl
    refine ⟨comment_lines s, ?_, ?_, hw.1⟩
    · unfold wrapLines
      rw [wrapAux_flatten, List.nil_append]
    · apply hw.2
      right
      rw [Split_space]
      exact splitAux_ne_nil _ _ _

/-- Witness of comment_lossless: a description long enough to be wrapped once. -/
theorem comment_lossless_witness :
    comment "Specifies the category of the event, which is sent with the hit.".toList =
      ("// Specifies the category of the event, which is sent with" ++
        "\n// the hit.").toList ∧
    deleteAll lineBreak 0
        (comment "Specifies the category of the event, which is sent with the hit.".toList) =
      "// ".toList ++ "Specifies the category of the event, which is sent with the hit.".toList :=
  ⟨by decide,
   comment_lossless.1 "Specifies the category of the event, which is sent with the hit.".toList
     (by decide)⟩

/-- C19 (as stated) fails: len counts bytes, so a word of 28 letters of two bytes each
fills the line, and the line break is inserted while the line holds 31 characters. -/
theorem comment_lossless_counterexample :
    comment exAccented =
      "// ".toList ++ List.replicate 28 (Char.ofNat 233) ++ "\n// b".toList ∧
    ("// ".toList ++ List.replicate 28 (Char.ofNat 233)).length = 31 ∧
    len ("// ".toList ++ List.replicate 28 (Char.ofNat 233)) = 59 := by
  decide

end Protocol



